import Mathlib

set_option maxHeartbeats 1000000

/-!
Shallow embedding of the conversation-analyzer core: the JSONL parser
(`src/parser.py`), the embedding client (`src/embeddings.py`) and the
storage layer (`src/database.py`).

Conventions of the embedding:
* JSON values produced by `json.loads` are modelled by the inductive type
  `Json`; Python `None` is identified with JSON `null` (exactly how
  `json.loads` maps them), and JSON numbers are modelled as integers
  (their fractional part plays no role anywhere in the analyzed code).
* a raw JSONL record is modelled as a JSON object, i.e. a key/value list
  (a record line holding a non-object value makes the source abort the
  whole file inside metadata extraction, so no message list is returned
  for such files and they are outside every per-message statement).
* a Python function that can raise an exception is modelled as returning
  `Option`/`Except`, with `none`/`.error` standing for the raised
  exception.
* `datetime` values are modelled as natural numbers (only identity and
  order matter); `datetime.fromisoformat` is an oracle parameter.
* float vectors are modelled over an abstract linear ordered field with
  an abstract square-root function (instantiated with `ℝ`/`Real.sqrt` in
  concrete statements); the embedding HTTP call and the cosine-distance
  operator evaluated inside PostgreSQL are oracle parameters.
* recursion of `_extract_content` through looked-up object fields is not
  structural, so the function is defined with a fuel argument; every use
  instantiates the fuel with `jsize c + 1`, which strictly dominates the
  recursion depth.
-/

/-- A JSON value as produced by `json.loads`. -/
inductive Json : Type where
  | str (s : String)
  | num (n : Int)
  | bool (b : Bool)
  | null
  | arr (items : List Json)
  | obj (fields : List (String × Json))

namespace Json

mutual

/-- Structural size of a JSON value (used as a fuel bound). -/
def jsize : Json → Nat
  | .str _ => 1
  | .num _ => 1
  | .bool _ => 1
  | .null => 1
  | .arr items => 1 + jsizeArr items
  | .obj fields => 1 + jsizeObj fields

/-- Structural size of a JSON array body. -/
def jsizeArr : List Json → Nat
  | [] => 0
  | x :: xs => 1 + jsize x + jsizeArr xs

/-- Structural size of a JSON object body. -/
def jsizeObj : List (String × Json) → Nat
  | [] => 0
  | (_, v) :: xs => 1 + jsize v + jsizeObj xs

end

mutual

/-- Boolean equality of JSON values. -/
def jbeq : Json → Json → Bool
  | .str a, .str b => a == b
  | .num a, .num b => a == b
  | .bool a, .bool b => a == b
  | .null, .null => true
  | .arr a, .arr b => jbeqArr a b
  | .obj a, .obj b => jbeqObj a b
  | _, _ => false

/-- Boolean equality of JSON array bodies. -/
def jbeqArr : List Json → List Json → Bool
  | [], [] => true
  | a :: as, b :: bs => jbeq a b && jbeqArr as bs
  | _, _ => false

/-- Boolean equality of JSON object bodies. -/
def jbeqObj : List (String × Json) → List (String × Json) → Bool
  | [], [] => true
  | (k, a) :: as, (l, b) :: bs => k == l && jbeq a b && jbeqObj as bs
  | _, _ => false

end

mutual

theorem jbeq_iff : ∀ a b : Json, jbeq a b = true ↔ a = b
  | .str a, .str b => by simp [jbeq]
  | .str _, .num _ => by simp [jbeq]
  | .str _, .bool _ => by simp [jbeq]
  | .str _, .null => by simp [jbeq]
  | .str _, .arr _ => by simp [jbeq]
  | .str _, .obj _ => by simp [jbeq]
  | .num _, .str _ => by simp [jbeq]
  | .num a, .num b => by simp [jbeq]
  | .num _, .bool _ => by simp [jbeq]
  | .num _, .null => by simp [jbeq]
  | .num _, .arr _ => by simp [jbeq]
  | .num _, .obj _ => by simp [jbeq]
  | .bool _, .str _ => by simp [jbeq]
  | .bool _, .num _ => by simp [jbeq]
  | .bool a, .bool b => by simp [jbeq]
  | .bool _, .null => by simp [jbeq]
  | .bool _, .arr _ => by simp [jbeq]
  | .bool _, .obj _ => by simp [jbeq]
  | .null, .str _ => by simp [jbeq]
  | .null, .num _ => by simp [jbeq]
  | .null, .bool _ => by simp [jbeq]
  | .null, .null => by simp [jbeq]
  | .null, .arr _ => by simp [jbeq]
  | .null, .obj _ => by simp [jbeq]
  | .arr _, .str _ => by simp [jbeq]
  | .arr _, .num _ => by simp [jbeq]
  | .arr _, .bool _ => by simp [jbeq]
  | .arr _, .null => by simp [jbeq]
  | .arr a, .arr b => by simp [jbeq, jbeqArr_iff a b]
  | .arr _, .obj _ => by simp [jbeq]
  | .obj _, .str _ => by simp [jbeq]
  | .obj _, .num _ => by simp [jbeq]
  | .obj _, .bool _ => by simp [jbeq]
  | .obj _, .null => by simp [jbeq]
  | .obj _, .arr _ => by simp [jbeq]
  | .obj a, .obj b => by simp [jbeq, jbeqObj_iff a b]

theorem jbeqArr_iff : ∀ a b : List Json, jbeqArr a b = true ↔ a = b
  | [], [] => by simp [jbeqArr]
  | [], _ :: _ => by simp [jbeqArr]
  | _ :: _, [] => by simp [jbeqArr]
  | a :: as, b :: bs => by simp [jbeqArr, jbeq_iff a b, jbeqArr_iff as bs]

theorem jbeqObj_iff : ∀ a b : List (String × Json), jbeqObj a b = true ↔ a = b
  | [], [] => by simp [jbeqObj]
  | [], _ :: _ => by simp [jbeqObj]
  | _ :: _, [] => by simp [jbeqObj]
  | (k, a) :: as, (l, b) :: bs => by
      simp [jbeqObj, jbeq_iff a b, jbeqObj_iff as bs, and_assoc]

end

instance instDecidableEqJson : DecidableEq Json := fun a b =>
  decidable_of_iff (jbeq a b = true) (jbeq_iff a b)

/-- Python truthiness (`bool(x)`) of a parsed-JSON value. -/
def truthy : Json → Bool
  | .str s => s != ""
  | .num n => n != 0
  | .bool b => b
  | .null => false
  | .arr items => !items.isEmpty
  | .obj fields => !fields.isEmpty

/-- First binding of a key in a JSON object (Python dict lookup; the
dicts produced by `json.loads` have unique keys). -/
def getEntry : List (String × Json) → String → Option Json
  | [], _ => none
  | (k', v) :: rest, k => if k' = k then some v else getEntry rest k

/-- Python `k in d`. -/
def hasKey (fields : List (String × Json)) (k : String) : Bool :=
  (getEntry fields k).isSome

/-- Python `d.get(k, dflt)`: the stored value (which may be `null`,
i.e. Python `None`) when the key is present, the default otherwise. -/
def pyGet (fields : List (String × Json)) (k : String) (dflt : Json) : Json :=
  (getEntry fields k).getD dflt

/-- Python `d.get(k)`, whose default is `None`. -/
def getd (fields : List (String × Json)) (k : String) : Json :=
  pyGet fields k .null

/-- Python `d[k] = v` on a dict: replace the binding of `k`, appending a
fresh binding when the key is absent. -/
def setEntry : List (String × Json) → String → Json → List (String × Json)
  | [], k, v => [(k, v)]
  | (k', v') :: rest, k, v =>
      if k' = k then (k, v) :: rest else (k', v') :: setEntry rest k v

/-- Python `x == "lit"` for a parsed-JSON value `x` and a string literal:
true exactly when `x` is that string. -/
def isStr (v : Json) (s : String) : Bool :=
  match v with
  | .str s' => s' == s
  | _ => false

/-- Comma separator used by CPython `repr` of lists and dicts. -/
def commaSep : List String → String
  | [] => ""
  | [s] => s
  | s :: rest => s ++ ", " ++ commaSep rest

mutual

/-- CPython `repr` of a parsed-JSON value.  String escaping inside
`repr` is not modelled: the embedded strings only ever serve the
distinction between a stringified block and a dropped one. -/
def pyRepr : Json → String
  | .str s => "'" ++ s ++ "'"
  | .num n => toString n
  | .bool b => if b then "True" else "False"
  | .null => "None"
  | .arr items => "[" ++ commaSep (pyReprArr items) ++ "]"
  | .obj fields => "\x7b" ++ commaSep (pyReprObj fields) ++ "\x7d"

/-- CPython `repr` of each element of a list. -/
def pyReprArr : List Json → List String
  | [] => []
  | x :: xs => pyRepr x :: pyReprArr xs

/-- CPython `repr` of each binding of a dict. -/
def pyReprObj : List (String × Json) → List String
  | [] => []
  | (k, v) :: xs => ("'" ++ k ++ "': " ++ pyRepr v) :: pyReprObj xs

end

/-- CPython `str` of a parsed-JSON value. -/
def pyStr (c : Json) : String :=
  match c with
  | .str s => s
  | c => pyRepr c

end Json

open Json

/-- A raw JSONL record, i.e. one decoded line: a JSON object. -/
abbrev RawRecord := List (String × Json)

/-! ## `src/parser.py`: data model -/

/-- The auxiliary metadata dict attached to every parsed message
(`_parse_message`, `msg_metadata`). -/
structure MsgMetadata where
  original_type : Json
  cwd : Json
  git_branch : Json
deriving DecidableEq

/-- A parsed message (`ParsedMessage` dataclass).  `content` is the value
returned by `_extract_content`, which on unusual inputs can be a
non-string JSON value; `tool_uses` is `null` when Python stores `None`. -/
structure ParsedMessage where
  uuid : Json
  role : Json
  content : Json
  timestamp : Option Nat
  tool_uses : Json
  metadata : MsgMetadata
deriving DecidableEq

/-- Identity of a conversation file on disk: the pieces of the path and
the stat information the parser reads. -/
structure FileInfo where
  parent_name : String
  parent_path : String
  stem : String
  path : String
  mtime : Nat
deriving DecidableEq

/-- Conversation metadata (`ConversationMetadata` dataclass). -/
structure ConversationMetadata where
  project_name : String
  project_path : String
  session_id : String
  git_branch : Option Json
  started_at : Option Nat
  ended_at : Option Nat
  working_directory : Option Json
  message_count : Nat
  file_path : String
deriving DecidableEq

/-! ## `src/parser.py`: content flattening (`_extract_content`) -/

/-- Python `"\n".join(parts)`. -/
def joinNl : List String → String
  | [] => ""
  | [s] => s
  | s :: rest => s ++ "\n" ++ joinNl rest

/-- The string check `"\n".join` performs on its argument: all parts must
be `str` values, otherwise a `TypeError` is raised (`none`). -/
def asStrings : List Json → Option (List String)
  | [] => some []
  | .str s :: rest => (asStrings rest).map (s :: ·)
  | _ => none

/-- One iteration of the `text_parts` loop of `_extract_content`'s list
branch, with the recursive flattener passed in as `f`: blocks of type
`text` append their `text` field, dict blocks with a nested `content`
field append the recursively flattened content, string blocks append
themselves, and every other block is skipped.  The outer `none` models a
raised exception. -/
def textPartStep (f : Json → Option Json) (acc : Option (List Json)) (block : Json) :
    Option (List Json) :=
  acc.bind fun ps =>
    match block with
    | .obj bf =>
        if isStr (getd bf "type") "text" && hasKey bf "text" then
          some (ps ++ [pyGet bf "text" .null])
        else
          match getEntry bf "content" with
          | some c => (f c).map fun r => ps ++ [r]
          | none => some ps
    | .str s => some (ps ++ [.str s])
    | _ => some ps

/-- The whole `text_parts` loop, starting from the empty accumulator. -/
def textPartsLoop (f : Json → Option Json) (blocks : List Json) : Option (List Json) :=
  blocks.foldl (textPartStep f) (some [])

/-- Fuelled `_extract_content`.  A plain string is returned as is; a list
runs the `text_parts` loop and joins with newline; a dict of type `text`
returns its `text` field, a dict with a `content` field recurses, any
other dict is stringified; a remaining scalar is stringified when truthy
and becomes the empty string otherwise.  `none` models a raised
exception (fuel exhaustion is unreachable at the fuel bounds used). -/
def extractF : Nat → Json → Option Json
  | 0, _ => none
  | fuel + 1, c =>
    match c with
    | .str s => some (.str s)
    | .arr blocks =>
        match textPartsLoop (extractF fuel) blocks with
        | none => none
        | some parts =>
            match asStrings parts with
            | none => none
            | some ss => some (.str (joinNl ss))
    | .obj fields =>
        if isStr (getd fields "type") "text" && hasKey fields "text" then
          some (pyGet fields "text" .null)
        else
          match getEntry fields "content" with
          | some c' => extractF fuel c'
          | none => some (.str (pyStr (.obj fields)))
    | j => some (.str (if j.truthy then pyStr j else ""))

/-- `_extract_content`: the fuelled flattener at an always-sufficient
fuel bound. -/
def extract_content (c : Json) : Option Json :=
  extractF (jsize c + 1) c

/-! ## `src/parser.py`: message parsing (`_parse_message`) -/

/-- The tool-result detection on a message content value: the content is
a list of content blocks one of which is a dict of type `tool_result`. -/
def hasToolResultContentBlock (content : Json) : Bool :=
  match content with
  | .arr blocks =>
      blocks.any fun b =>
        match b with
        | .obj bf => isStr (getd bf "type") "tool_result"
        | _ => false
  | _ => false

/-- The timestamp computation of `_parse_message`: a present truthy
`timestamp` field is parsed with the ISO-format oracle `parseTs`
(parse failures are swallowed, leaving `none`); a non-string truthy
timestamp raises (`.replace` on a non-string), failing the whole message;
otherwise a summary record inherits the conversation start time when one
is known.  Outer `none` is the raised exception. -/
def parse_timestamp_field (parseTs : String → Option Nat) (raw : RawRecord)
    (isSummary : Bool) (startedAt : Option Nat) : Option (Option Nat) :=
  if hasKey raw "timestamp" && (getd raw "timestamp").truthy then
    match getd raw "timestamp" with
    | .str s => some (parseTs s)
    | _ => none
  else if isSummary && startedAt.isSome then some startedAt
  else some none

/-- `_parse_message`.  `fresh` models the `uuid4()` fallback; `startedAt`
is `metadata.started_at` at call time.  `none` models the caught
exception that makes the caller drop the record. -/
def parse_message (parseTs : String → Option Nat) (fresh : String)
    (startedAt : Option Nat) (raw : RawRecord) : Option ParsedMessage :=
  let msgType := pyGet raw "type" (.str "unknown")
  let isSummary := isStr msgType "summary"
  let msgUuid :=
    if isSummary then pyGet raw "leafUuid" (.str fresh)
    else pyGet raw "uuid" (.str fresh)
  match parse_timestamp_field parseTs raw isSummary startedAt with
  | none => none
  | some timestamp =>
    match
      (if isSummary then
        some [("content", pyGet raw "summary" (.str ""))]
      else
        match pyGet raw "message" (.obj []) with
        | .obj f => some f
        | _ => none) with
    | none => none
    | some message_data =>
      let role := if isSummary then Json.str "summary" else pyGet message_data "role" msgType
      let is_tool_response :=
        (isStr role "user" && hasToolResultContentBlock (getd message_data "content")) ||
        (isStr role "user" && hasKey raw "toolUseResult")
      let role := if is_tool_response then Json.str "tool" else role
      match extract_content (pyGet message_data "content" (.str "")) with
      | none => none
      | some content =>
        some
          { uuid := msgUuid
            role := role
            content := content
            timestamp := timestamp
            tool_uses := getd raw "toolUseResult"
            metadata :=
              { original_type := msgType
                cwd := getd raw "cwd"
                git_branch := getd raw "gitBranch" } }

/-! ## `src/parser.py`: conversation metadata (`_extract_conversation_metadata`) -/

/-- The scan loop over the raw records: record by record, a truthy
`gitBranch` field overwrites the branch and a truthy `cwd` field
overwrites the working directory; the loop stops right after the record
that first set the branch.  The accumulators only ever hold truthy
values, so Python's `if git_branch:` break test is `isSome`. -/
def scanBranchCwd : Option Json → Option Json → List RawRecord → Option Json × Option Json
  | gb, wd, [] => (gb, wd)
  | gb, wd, msg :: rest =>
      let gb' := if hasKey msg "gitBranch" && (getd msg "gitBranch").truthy then some (getd msg "gitBranch") else gb
      let wd' := if hasKey msg "cwd" && (getd msg "cwd").truthy then some (getd msg "cwd") else wd
      if gb'.isSome then (gb', wd') else scanBranchCwd gb' wd' rest

/-- `_extract_conversation_metadata`. -/
def extract_conversation_metadata (fi : FileInfo) (raws : List RawRecord) : ConversationMetadata :=
  let scanned := scanBranchCwd none none raws
  { project_name := fi.parent_name
    project_path := fi.parent_path
    session_id := fi.stem
    git_branch := scanned.1
    started_at := none
    ended_at := none
    working_directory := scanned.2
    message_count := 0
    file_path := fi.path }

/-! ## `src/parser.py`: timestamp repair and the file pipeline -/

/-- `_fix_missing_timestamps`: a message without a timestamp takes the
first timestamp among the following messages, falling back to the file
modification time.  (The Python loop mutates in place but only ever reads
indices beyond the one being fixed, so it equals this one-pass recursion.) -/
def fix_missing_timestamps (mtime : Nat) : List ParsedMessage → List ParsedMessage
  | [] => []
  | m :: rest =>
      let m' :=
        match m.timestamp with
        | none => { m with timestamp := some ((rest.findSome? (·.timestamp)).getD mtime) }
        | some _ => m
      m' :: fix_missing_timestamps mtime rest

/-- The per-record parsing pass of `parse_conversation_file`: records are
processed in line order and records whose parse raises are skipped.
`freshAt i` is the `uuid4()` fallback for the record of index `i`. -/
def parsed_messages (parseTs : String → Option Nat) (freshAt : Nat → String)
    (startedAt : Option Nat) (raws : List RawRecord) : List ParsedMessage :=
  raws.enum.filterMap fun p => parse_message parseTs (freshAt p.1) startedAt p.2

/-- `parse_conversation_file`, starting from the decoded records of the
non-blank lines (line-level JSON decoding and file IO happen upstream).
`none` is the `ValueError` raised when no record decoded. -/
def parse_conversation_file (parseTs : String → Option Nat) (freshAt : Nat → String)
    (fi : FileInfo) (raws : List RawRecord) :
    Option (ConversationMetadata × List ParsedMessage) :=
  if raws.isEmpty then none
  else
    let meta := extract_conversation_metadata fi raws
    let msgs := fix_missing_timestamps fi.mtime (parsed_messages parseTs freshAt meta.started_at raws)
    let meta :=
      if !msgs.isEmpty then
        let meta := { meta with message_count := msgs.length }
        let ts := msgs.filterMap (·.timestamp)
        match ts.min?, ts.max? with
        | some a, some b => { meta with started_at := some a, ended_at := some b }
        | _, _ => meta
      else meta
    some (meta, msgs)

/-! ## `src/embeddings.py`: the Ollama embedding client

The float arithmetic of numpy is modelled over an abstract linear ordered
field `K`, with `np.sqrt`-backed `np.linalg.norm` supplied as an abstract
square-root function; the HTTP POST to the embeddings endpoint is the
oracle `post` (`.error` is a raised transport exception).  The
`asyncio.gather(..., return_exceptions=True)` call settles every item of
a batch, so batch results are deterministic lists in item order. -/

/-- Configuration fields of `EmbeddingConfig` the embedding logic reads
(transport fields are external collaborators and omitted). -/
structure EmbeddingConfig where
  batch_size : Nat := 32
  max_text_length : Nat := 8192
deriving DecidableEq

/-- Python `str.split()` (split on whitespace runs, no empty parts),
character by character. -/
def splitWsAux : List Char → List Char → List (List Char)
  | [], [] => []
  | [], acc => [acc.reverse]
  | c :: cs, acc =>
      if c.isWhitespace then
        if acc.isEmpty then splitWsAux cs [] else acc.reverse :: splitWsAux cs []
      else splitWsAux cs (c :: acc)

/-- Python `text.split()`. -/
def pySplitWs (s : String) : List String :=
  (splitWsAux s.data []).map String.mk

/-- Python `" ".join(parts)`. -/
def joinSpace : List String → String
  | [] => ""
  | [s] => s
  | s :: rest => s ++ " " ++ joinSpace rest

/-- `_preprocess_text`: empty or whitespace-only text short-circuits to
the empty string; otherwise whitespace is collapsed and the text is
truncated to the configured character budget. -/
def preprocess_text (cfg : EmbeddingConfig) (text : String) : String :=
  if text.data.all Char.isWhitespace then ""
  else
    let t := joinSpace (pySplitWs text)
    if t.length > cfg.max_text_length then t.take cfg.max_text_length else t

/-- The all-zero embedding vector `np.zeros(n)`. -/
def zeroVec (K : Type) [LinearOrderedField K] (n : Nat) : List K :=
  List.replicate n 0

/-- Sum of squares of a vector (the square of `np.linalg.norm`). -/
def sumSq {K : Type} [LinearOrderedField K] (v : List K) : K :=
  (v.map fun x => x * x).sum

/-- The normalization step of `embed_single`: divide by the L2 norm when
it is positive, otherwise return the vector unchanged. -/
def normalizeVec {K : Type} [LinearOrderedField K] (sqrt : K → K) (v : List K) : List K :=
  let n := sqrt (sumSq v)
  if 0 < n then v.map (· / n) else v

/-- `embed_single`: preprocess, short-circuit empty text to a zero
vector, otherwise call the embeddings endpoint and normalize the
response.  Transport errors propagate to the caller. -/
def embed_single {K : Type} [LinearOrderedField K] (sqrt : K → K)
    (post : String → Except Unit (List K)) (cfg : EmbeddingConfig)
    (text : String) : Except Unit (List K) :=
  let processed := preprocess_text cfg text
  if processed = "" then .ok (zeroVec K 768)
  else
    match post processed with
    | .error e => .error e
    | .ok emb => .ok (normalizeVec sqrt emb)

/-- The batch slicing `texts[i:i+batch_size]` for `i = 0, bs, 2*bs, ...`
(fuelled by the list length, which bounds the number of slices for every
positive batch size). -/
def chunkF {α : Type} : Nat → Nat → List α → List (List α)
  | 0, _, _ => []
  | _, _, [] => []
  | fuel + 1, bs, l => l.take bs :: chunkF fuel bs (l.drop bs)

/-- The batches `embed_batch` iterates over. -/
def chunkList {α : Type} (bs : Nat) (l : List α) : List (List α) :=
  chunkF l.length bs l

/-- `embed_batch`: batches are processed in order; within a batch every
item that raised is replaced by a zero vector and every other item keeps
its `embed_single` result.  (The `try` around `asyncio.gather` is
unreachable because `return_exceptions=True` makes `gather` settle every
item instead of raising.) -/
def embed_batch {K : Type} [LinearOrderedField K] (sqrt : K → K)
    (post : String → Except Unit (List K)) (cfg : EmbeddingConfig)
    (texts : List String) : List (List K) :=
  if texts.isEmpty then []
  else
    (chunkList cfg.batch_size texts).foldl
      (fun acc batch =>
        acc ++
          batch.map fun t =>
            match embed_single sqrt post cfg t with
            | .ok v => v
            | .error _ => zeroVec K 768)
      []

/-! ## `src/database.py`: storage layer

The PostgreSQL state is modelled as lists of rows; the pgvector cosine
distance operator evaluated inside the database is the oracle `dist`.
Embedding vectors stored in rows are rational lists (their numeric values
never matter to the storage logic). -/

/-- A row of the `conversations` table (the columns the analyzed logic
reads or writes). -/
structure ConversationRow where
  id : Nat
  project_name : String
  project_path : String
  session_id : String
  git_branch : Option Json
  started_at : Option Nat
  ended_at : Option Nat
  working_directory : Option Json
  message_count : Nat
  file_path : String
deriving DecidableEq

/-- A row of the `messages` table. -/
structure MessageRow where
  id : Nat
  conversation_id : Nat
  message_uuid : Json
  role : Json
  content : Json
  embedding : Option (List ℚ)
  timestamp : Option Nat
  tool_uses : Json
deriving DecidableEq

/-- A row of the `technical_events` table. -/
structure TechnicalEventRow where
  conversation_id : Nat
  message_id : Nat
  event_type : String
  file_path : Json
  details : Json
  timestamp : Option Nat
deriving DecidableEq

/-- The stored database state. -/
structure DBState where
  conversations : List ConversationRow
  messages : List MessageRow
  technical_events : List TechnicalEventRow
deriving DecidableEq

/-- The externally visible steps `store_conversation` takes against the
shared database resource, in order. -/
inductive DbAction : Type where
  | acquire_connection
  | begin_transaction
  | upsert_conversation
  | bulk_insert_messages
  | insert_technical_events
deriving DecidableEq

/-- A storage-layer failure. -/
inductive StoreError : Type where
  | validation
deriving DecidableEq

/-- `_extract_event_type`: falsy payloads yield no event; todo-list
fields categorize to `todo_updated`, a generic `content` field to
`tool_result`, anything else to `tool_use`.  (Key containment on a
non-dict payload is modelled as false.) -/
def extract_event_type (tool_uses : Json) : Option String :=
  if !tool_uses.truthy then none
  else if (match tool_uses with | .obj f => hasKey f "newTodos" || hasKey f "oldTodos" | _ => false) then
    some "todo_updated"
  else if (match tool_uses with | .obj f => hasKey f "content" | _ => false) then
    some "tool_result"
  else some "tool_use"

/-- The `file_path` pulled from a tool payload:
`tool_uses.get('file_path') or tool_uses.get('filePath')`. -/
def toolFilePath (tool_uses : Json) : Json :=
  match tool_uses with
  | .obj f => if (getd f "file_path").truthy then getd f "file_path" else getd f "filePath"
  | _ => .null

/-- Lookup in the `uuid_to_id` dict built from the bulk-insert result (a
Python dict comprehension keeps the last binding of a duplicated key). -/
def lookupUuidId (pairs : List (Json × Nat)) (u : Json) : Option Nat :=
  (pairs.reverse.find? fun p => decide (p.1 = u)).map (·.2)

/-- The embedding vector paired with message `i`:
`embeddings[i]` when a truthy embeddings list was supplied and the entry
is not `None`, else no vector. -/
def embeddingAt (embeddings : Option (List (Option (List ℚ)))) (i : Nat) : Option (List ℚ) :=
  match embeddings with
  | some es => if es.isEmpty then none else ((es.get? i).getD none)
  | none => none

/-- Upsert of one row into `messages` keyed on
`(conversation_id, message_uuid)`: on conflict the stored embedding is
refreshed, otherwise a fresh row id is assigned.  Returns the updated
table and the row id (the `RETURNING` clause). -/
def upsertMessageRow (rows : List MessageRow) (convId : Nat) (m : ParsedMessage)
    (emb : Option (List ℚ)) (freshId : Nat) : List MessageRow × Nat :=
  match rows.find? fun r => decide (r.conversation_id = convId) && decide (r.message_uuid = m.uuid) with
  | some r =>
      (rows.map fun r' => if r'.id = r.id then { r' with embedding := emb } else r', r.id)
  | none =>
      (rows ++ [{ id := freshId
                  conversation_id := convId
                  message_uuid := m.uuid
                  role := m.role
                  content := m.content
                  embedding := emb
                  timestamp := m.timestamp
                  tool_uses := m.tool_uses }], freshId)

/-- The bulk message insert of `store_conversation`: messages are
upserted in order; fresh row ids count up from `base`.  Returns the
updated table and the `(message_uuid, id)` pairs of the inserted rows. -/
def bulkInsertMessages (rows : List MessageRow) (convId : Nat)
    (pairs : List (ParsedMessage × Option (List ℚ))) (base : Nat) :
    List MessageRow × List (Json × Nat) :=
  match pairs with
  | [] => (rows, [])
  | (m, emb) :: rest =>
      let step := upsertMessageRow rows convId m emb base
      let next := bulkInsertMessages step.1 convId rest (base + 1)
      (next.1, (m.uuid, step.2) :: next.2)

/-- `store_conversation`.  A truthy embeddings list whose length differs
from the message count raises the validation `ValueError` before the
connection is acquired; otherwise one transaction upserts the
conversation row (keyed on session id and file path), bulk-upserts the
messages, and inserts the technical events derived from truthy
`tool_uses` payloads whose uuid was just inserted. -/
def store_conversation (db : DBState) (conversation : ConversationMetadata)
    (messages : List ParsedMessage) (embeddings : Option (List (Option (List ℚ)))) :
    List DbAction × Except StoreError (DBState × Nat) :=
  let embTruthy := match embeddings with | some es => !es.isEmpty | none => false
  if embTruthy && decide ((embeddings.getD []).length ≠ messages.length) then
    ([], .error .validation)
  else
    let found := db.conversations.find? fun c =>
      decide (c.session_id = conversation.session_id) && decide (c.file_path = conversation.file_path)
    let freshConvId := db.conversations.length + db.messages.length + 1
    let convId := match found with | some c => c.id | none => freshConvId
    let conversations :=
      match found with
      | some c =>
          db.conversations.map fun c' =>
            if c'.id = c.id then { c' with message_count := messages.length } else c'
      | none =>
          db.conversations ++
            [{ id := freshConvId
               project_name := conversation.project_name
               project_path := conversation.project_path
               session_id := conversation.session_id
               git_branch := conversation.git_branch
               started_at := conversation.started_at
               ended_at := conversation.ended_at
               working_directory := conversation.working_directory
               message_count := messages.length
               file_path := conversation.file_path }]
    let pairs := messages.enum.map fun p => (p.2, embeddingAt embeddings p.1)
    let inserted := bulkInsertMessages db.messages convId pairs (db.conversations.length + db.messages.length + messages.length + 1)
    let uuidToId := inserted.2
    let events :=
      messages.filterMap fun m =>
        if m.tool_uses.truthy then
          match extract_event_type m.tool_uses with
          | some event_type =>
              match lookupUuidId uuidToId m.uuid with
              | some mid =>
                  some { conversation_id := convId
                         message_id := mid
                         event_type := event_type
                         file_path := toolFilePath m.tool_uses
                         details := m.tool_uses
                         timestamp := m.timestamp }
              | none => none
          | none => none
        else none
    ([.acquire_connection, .begin_transaction, .upsert_conversation, .bulk_insert_messages, .insert_technical_events],
      .ok ({ conversations := conversations, messages := inserted.1,
             technical_events := db.technical_events ++ events }, convId))

/-- A search result row of `search_similar`. -/
structure SearchResult where
  id : Nat
  content : Json
  role : Json
  timestamp : Option Nat
  similarity : ℚ
  project_name : String
  session_id : String
  git_branch : Option Json
  file_path : String
deriving DecidableEq

/-- Ordered insertion for sorting by a rational key. -/
def insertByKey {α : Type} (key : α → ℚ) (a : α) : List α → List α
  | [] => [a]
  | b :: rest => if key a ≤ key b then a :: b :: rest else b :: insertByKey key a rest

/-- Sorting by a rational key in ascending order (the `ORDER BY` of the
search query; SQL guarantees the ordering, not a particular stable
permutation, and every statement proved below only uses the ordering). -/
def sortByKey {α : Type} (key : α → ℚ) : List α → List α
  | [] => []
  | a :: rest => insertByKey key a (sortByKey key rest)

/-- The row filter of `search_similar`'s WHERE clause: the embedding must
be non-NULL with distance below the threshold, and the optional project
and date filters apply when present (`if project_filter:` adds the
project condition only for a truthy, i.e. non-empty, string; a NULL
timestamp fails an SQL comparison). -/
def searchKeep (dist : List ℚ → List ℚ → ℚ) (query : List ℚ) (threshold : ℚ)
    (project_filter : Option String) (date_after date_before : Option Nat)
    (mc : MessageRow × ConversationRow) : Bool :=
  (match mc.1.embedding with
   | some v => decide (dist v query < threshold)
   | none => false) &&
  (match project_filter with
   | some p => if p = "" then true else decide (mc.2.project_name = p)
   | none => true) &&
  (match date_after with
   | some a => match mc.1.timestamp with | some t => decide (a ≤ t) | none => false
   | none => true) &&
  (match date_before with
   | some b => match mc.1.timestamp with | some t => decide (t ≤ b) | none => false
   | none => true)

/-- `search_similar`: join messages with their conversation, filter,
order by ascending cosine distance to the query vector, truncate to
`limit` and project each row to the returned record. -/
def search_similar (db : DBState) (dist : List ℚ → List ℚ → ℚ) (query : List ℚ)
    (limit : Nat) (threshold : ℚ) (project_filter : Option String)
    (date_after date_before : Option Nat) : List SearchResult :=
  let joined :=
    (db.messages.map fun m =>
      db.conversations.filterMap fun c =>
        if c.id = m.conversation_id then some (m, c) else none).flatten
  let filtered := joined.filter (searchKeep dist query threshold project_filter date_after date_before)
  let key := fun mc : MessageRow × ConversationRow => dist (mc.1.embedding.getD []) query
  let limited := (sortByKey key filtered).take limit
  limited.map fun mc =>
    { id := mc.1.id
      content := mc.1.content
      role := mc.1.role
      timestamp := mc.1.timestamp
      similarity := dist (mc.1.embedding.getD []) query
      project_name := mc.2.project_name
      session_id := mc.2.session_id
      git_branch := mc.2.git_branch
      file_path := mc.2.file_path }

/-! ## Definitions written from the claims' wording

These definitions follow the specification text (for refinement
comparisons against the source-derived definitions above), never the
source. -/

/-- Claim wording: the per-block contribution of the flattening of a
list of content blocks: a plain string contributes itself, a `text`-typed
block contributes its `text` field, a block with a nested `content` field
contributes its recursively flattened content, and every other block
contributes nothing.  Outer `none` is a raised exception. -/
def specContribution (f : Json → Option Json) : Json → Option (Option Json)
  | .str s => some (some (.str s))
  | .obj bf =>
      if isStr (getd bf "type") "text" && hasKey bf "text" then
        some (some (pyGet bf "text" .null))
      else
        match getEntry bf "content" with
        | some c => (f c).map some
        | none => some none
  | _ => some none

/-- Claim wording: the contributions of a list of blocks, in order. -/
def specParts (f : Json → Option Json) : List Json → Option (List Json)
  | [] => some []
  | b :: rest =>
      match specContribution f b with
      | none => none
      | some c =>
          match specParts f rest with
          | none => none
          | some ps => some (match c with | some v => v :: ps | none => ps)

/-- Modelled from the amended claim wording: the declarative flattening
algorithm — strings pass through, the contributions of a list of blocks
are joined with newline, a top-level `text` block yields its text, a
top-level block with nested `content` recurses, a top-level unrecognized
block is stringified, and a remaining scalar is stringified when truthy. -/
def flattenSpecF : Nat → Json → Option Json
  | 0, _ => none
  | fuel + 1, c =>
    match c with
    | .str s => some (.str s)
    | .arr blocks =>
        match specParts (flattenSpecF fuel) blocks with
        | none => none
        | some parts =>
            match asStrings parts with
            | none => none
            | some ss => some (.str (joinNl ss))
    | .obj fields =>
        if isStr (getd fields "type") "text" && hasKey fields "text" then
          some (pyGet fields "text" .null)
        else
          match getEntry fields "content" with
          | some c' => flattenSpecF fuel c'
          | none => some (.str (pyStr (.obj fields)))
    | j => some (.str (if j.truthy then pyStr j else ""))

/-- The declarative flattening at the always-sufficient fuel bound used
by `extract_content`. -/
def flattenSpec (c : Json) : Option Json :=
  flattenSpecF (jsize c + 1) c

/-- Claim wording: the leaf contributed by a text field value: its text
when it is a string, nothing otherwise. -/
def textLeafOf (v : Json) : List String :=
  match v with
  | .str t => [t]
  | _ => []

/-- Claim wording: the text-bearing leaves contributed by one block of a
block list, given the collector `g` for nested structures: a string is a
leaf, a `text`-typed block's string text is a leaf, a block with nested
`content` has the leaves of that content, and a nested list has the
leaves of its blocks. -/
def blockLeavesWith (g : Json → List String) : Json → List String
  | .str s => [s]
  | .obj bf =>
      if isStr (getd bf "type") "text" && hasKey bf "text" then
        textLeafOf (pyGet bf "text" .null)
      else
        match getEntry bf "content" with
        | some c => g c
        | none => []
  | .arr items => g (.arr items)
  | _ => []

/-- Claim wording, fuelled: all text-bearing leaves of a content value. -/
def textLeavesF : Nat → Json → List String
  | 0, _ => []
  | fuel + 1, .arr blocks => (blocks.map (blockLeavesWith (textLeavesF fuel))).flatten
  | fuel + 1, c => blockLeavesWith (textLeavesF fuel) c

/-- All text-bearing leaves of a content value. -/
def textLeaves (c : Json) : List String :=
  textLeavesF (jsize c + 1) c

/-- Amended-claim wording: one block of a block list is well-nested when
it is not itself a list and its nested content (if that is the branch the
flattener takes) is well-nested. -/
def goodBlockWith (g : Json → Bool) : Json → Bool
  | .arr _ => false
  | .obj bf =>
      if isStr (getd bf "type") "text" && hasKey bf "text" then true
      else
        match getEntry bf "content" with
        | some c => g c
        | none => true
  | _ => true

/-- Amended-claim wording, fuelled: no list appears directly inside a
list anywhere along the flattener's recursion. -/
def noNestedListF : Nat → Json → Bool
  | 0, _ => true
  | fuel + 1, .arr blocks => blocks.all (goodBlockWith (noNestedListF fuel))
  | fuel + 1, .obj bf => goodBlockWith (noNestedListF fuel) (.obj bf)
  | _ + 1, _ => true

/-- No list appears directly inside a list of content blocks. -/
def noNestedList (c : Json) : Bool :=
  noNestedListF (jsize c + 1) c

/-- Claim wording (C9): the first truthy value of field `k` over the
records in line order. -/
def firstTruthyField (k : String) (raws : List RawRecord) : Option Json :=
  raws.findSome? fun r => if (getd r k).truthy then some (getd r k) else none

/-- The records up to and including the first one with a truthy
`gitBranch` (all of them when none has one). -/
def upToFirstBranch : List RawRecord → List RawRecord
  | [] => []
  | r :: rest => if (getd r "gitBranch").truthy then [r] else r :: upToFirstBranch rest

/-- The last truthy value of field `k` over the records in line order. -/
def lastTruthyField (k : String) (raws : List RawRecord) : Option Json :=
  firstTruthyField k raws.reverse

/-- The message payload of a record, when it offers the dict interface
`_parse_message` uses. -/
def payloadFields (raw : RawRecord) : Option (List (String × Json)) :=
  match pyGet raw "message" (.obj []) with
  | .obj f => some f
  | _ => none

/-- The declared role of a record: `summary` for summary-typed records,
otherwise the payload's `role` field defaulted to the record type. -/
def declaredRole (raw : RawRecord) : Json :=
  let msgType := pyGet raw "type" (.str "unknown")
  if isStr msgType "summary" then .str "summary"
  else
    match payloadFields raw with
    | some f => pyGet f "role" msgType
    | none => .null

/-- The reclassification condition: the declared role is `user` and the
payload content holds a `tool_result` block, or the raw record carries a
`toolUseResult` field. -/
def toolResponseShape (raw : RawRecord) : Bool :=
  isStr (declaredRole raw) "user" &&
  (match payloadFields raw with
   | some f => hasToolResultContentBlock (getd f "content") || hasKey raw "toolUseResult"
   | none => false)

/-- The record with the `role` field of its message payload replaced
(used to state that parse success never depends on the role). -/
def setMessageRole (raw : RawRecord) (v : Json) : RawRecord :=
  match payloadFields raw with
  | some f => setEntry raw "message" (.obj (setEntry f "role" v))
  | none => raw

/-- A parsed message with its timestamp forgotten (for stating that the
repair pass touches nothing but timestamps). -/
def eraseTimestamp (m : ParsedMessage) : ParsedMessage :=
  { m with timestamp := none }

/-- Claim wording (C3): the repaired form of the message at index `i` of
the parsed sequence: an existing timestamp is kept, a missing one becomes
the first timestamp among the following messages, defaulting to the file
modification time. -/
def repairAt (mtime : Nat) (parsed : List ParsedMessage) (i : Nat) (m : ParsedMessage) : ParsedMessage :=
  match m.timestamp with
  | some _ => m
  | none => { m with timestamp := some (((parsed.drop (i + 1)).findSome? (·.timestamp)).getD mtime) }

/-! ## Concrete fixtures used by witnesses and counterexamples -/

/-- A timestamp oracle mapping the literal `T1` to time 11. -/
def tsOracleW : String → Option Nat := fun s => if s = "T1" then some 11 else none

/-- Fresh-uuid supply for witness runs. -/
def freshAtW : Nat → String := fun i => "fresh" ++ toString i

/-- File identity for witness runs. -/
def fiW : FileInfo :=
  { parent_name := "proj", parent_path := "/p", stem := "sess", path := "/p/sess.jsonl", mtime := 42 }

/-- A record whose payload is a `user` message carrying a `tool_result`
content block. -/
def rawW1 : RawRecord :=
  [("uuid", .str "u1"),
   ("message", .obj
      [("role", .str "user"),
       ("content", .arr [.obj [("type", .str "tool_result"), ("content", .str "ok")]])])]

/-- A record whose payload carries an unusual role string. -/
def rawW2 : RawRecord :=
  [("message", .obj [("role", .str "overseer"), ("content", .str "hi")])]

/-- Two records: the first has no timestamp, the second parses to 11. -/
def rawsW3 : List RawRecord :=
  [[("message", .obj [("role", .str "user"), ("content", .str "first")])],
   [("timestamp", .str "T1"),
    ("message", .obj [("role", .str "assistant"), ("content", .str "second")])]]

/-- Two records: a parsable one and one whose truthy non-string timestamp
makes its parse raise (so the record is skipped). -/
def rawsW10 : List RawRecord :=
  [[("uuid", .str "ka"), ("message", .obj [("role", .str "user"), ("content", .str "kept")])],
   [("timestamp", .num 5)]]

/-- An empty database. -/
def dbW : DBState := { conversations := [], messages := [], technical_events := [] }

/-- Conversation metadata for storage runs. -/
def convW : ConversationMetadata :=
  { project_name := "proj", project_path := "/p", session_id := "sess"
    git_branch := none, started_at := none, ended_at := none
    working_directory := none, message_count := 0, file_path := "/p/sess.jsonl" }

/-- A message for storage runs. -/
def msgW : ParsedMessage :=
  { uuid := .str "u", role := .str "user", content := .str "c", timestamp := some 1
    tool_uses := .null
    metadata := { original_type := .str "unknown", cwd := .null, git_branch := .null } }

/-- A stored conversation row for search runs. -/
def convRowW : ConversationRow :=
  { id := 1, project_name := "proj", project_path := "/p", session_id := "sess"
    git_branch := none, started_at := none, ended_at := none, working_directory := none
    message_count := 1, file_path := "/p/sess.jsonl" }

/-- A stored message row with an embedding, for search runs. -/
def msgRowW : MessageRow :=
  { id := 10, conversation_id := 1, message_uuid := .str "u", role := .str "user"
    content := .str "c", embedding := some [1], timestamp := some 5, tool_uses := .null }

/-- A one-conversation one-message database for search runs. -/
def dbW8 : DBState :=
  { conversations := [convRowW], messages := [msgRowW], technical_events := [] }

/-- The search result produced for `dbW8` under the constant-zero
distance. -/
def resultW8 : SearchResult :=
  { id := 10, content := .str "c", role := .str "user", timestamp := some 5, similarity := 0
    project_name := "proj", session_id := "sess", git_branch := none
    file_path := "/p/sess.jsonl" }

/-! ## Helper lemmas -/

theorem payloadFields_eq_obj {raw : RawRecord} {f : List (String × Json)}
    (h : payloadFields raw = some f) : pyGet raw "message" (.obj []) = .obj f := by
  unfold payloadFields at h
  split at h
  · simp_all
  · simp_all

/-! ## Claim theorems -/

/-- C1: whenever a record's declared role is `user` and its content
holds a `tool_result` block or the record carries a `toolUseResult`
field, the parsed message's role is `tool` and never `user`. -/
theorem claim1_tool_result_reclassified (parseTs : String → Option Nat) (fresh : String)
    (startedAt : Option Nat) (raw : RawRecord) (f : List (String × Json)) (pm : ParsedMessage)
    (hpayload : payloadFields raw = some f)
    (hrole : declaredRole raw = .str "user")
    (hcond : hasToolResultContentBlock (getd f "content") = true ∨ hasKey raw "toolUseResult" = true)
    (hparse : parse_message parseTs fresh startedAt raw = some pm) :
    pm.role = .str "tool" ∧ pm.role ≠ .str "user" := by
  have hobj := payloadFields_eq_obj hpayload
  have hsum : isStr (pyGet raw "type" (.str "unknown")) "summary" = false := by
    by_contra hne
    have : isStr (pyGet raw "type" (.str "unknown")) "summary" = true := by
      revert hne; cases isStr (pyGet raw "type" (.str "unknown")) "summary" <;> simp
    unfold declaredRole at hrole
    simp [this] at hrole
  have hrole' : pyGet f "role" (pyGet raw "type" (.str "unknown")) = .str "user" := by
    unfold declaredRole at hrole
    rw [if_neg (by simp [hsum])] at hrole
    rw [hpayload] at hrole
    exact hrole
  have htool : ((isStr (Json.str "user") "user" && hasToolResultContentBlock (getd f "content")) ||
      (isStr (Json.str "user") "user" && hasKey raw "toolUseResult")) = true := by
    rcases hcond with h | h <;> simp [isStr, h]
  unfold parse_message at hparse
  simp only [hsum, Bool.false_eq_true, if_false, hobj, hrole', htool, if_true] at hparse
  split at hparse
  · exact absurd hparse (by simp)
  · split at hparse
    · exact absurd hparse (by simp)
    · rw [Option.some.injEq] at hparse
      constructor
      · rw [← hparse]
      · rw [← hparse]
        intro h
        injection h with h'
        exact absurd h' (by decide)

/-- Witness for C1 at a concrete tool-result record. -/
theorem claim1_witness :
    payloadFields rawW1 =
      some [("role", .str "user"),
            ("content", .arr [.obj [("type", .str "tool_result"), ("content", .str "ok")]])] ∧
    declaredRole rawW1 = .str "user" ∧
    (∀ pm, parse_message tsOracleW "w" none rawW1 = some pm →
      pm.role = .str "tool" ∧ pm.role ≠ .str "user") := by
  refine ⟨rfl, rfl, fun pm hpm => ?_⟩
  exact claim1_tool_result_reclassified tsOracleW "w" none rawW1 _ pm rfl rfl
    (Or.inl (by decide)) hpm

theorem getEntry_setEntry_self (l : List (String × Json)) (k : String) (v : Json) :
    getEntry (setEntry l k v) k = some v := by
  induction l with
  | nil => simp [setEntry, getEntry]
  | cons kv rest ih =>
      obtain ⟨k', v'⟩ := kv
      by_cases h : k' = k
      · simp [setEntry, h, getEntry]
      · simp [setEntry, h, getEntry, ih]

theorem getEntry_setEntry_ne (l : List (String × Json)) (k k' : String) (v : Json)
    (h : k' ≠ k) : getEntry (setEntry l k v) k' = getEntry l k' := by
  have hkk : k ≠ k' := fun hh => h hh.symm
  induction l with
  | nil => simp only [setEntry, getEntry, if_neg hkk]
  | cons kv rest ih =>
      obtain ⟨k'', v''⟩ := kv
      by_cases hk : k'' = k
      · subst hk
        simp only [setEntry, if_pos rfl, getEntry, if_neg hkk]
      · simp only [setEntry, if_neg hk, getEntry, ih]

theorem pyGet_setEntry_ne (l : List (String × Json)) (k k' : String) (v d : Json)
    (h : k' ≠ k) : pyGet (setEntry l k v) k' d = pyGet l k' d := by
  unfold pyGet
  rw [getEntry_setEntry_ne l k k' v h]

theorem getd_setEntry_ne (l : List (String × Json)) (k k' : String) (v : Json)
    (h : k' ≠ k) : getd (setEntry l k v) k' = getd l k' :=
  pyGet_setEntry_ne l k k' v .null h

theorem hasKey_setEntry_ne (l : List (String × Json)) (k k' : String) (v : Json)
    (h : k' ≠ k) : hasKey (setEntry l k v) k' = hasKey l k' := by
  unfold hasKey
  rw [getEntry_setEntry_ne l k k' v h]

theorem parse_timestamp_field_setMessage (parseTs : String → Option Nat) (raw : RawRecord)
    (mv : Json) (b : Bool) (sa : Option Nat) :
    parse_timestamp_field parseTs (setEntry raw "message" mv) b sa =
      parse_timestamp_field parseTs raw b sa := by
  unfold parse_timestamp_field
  rw [hasKey_setEntry_ne raw "message" "timestamp" mv (by decide),
    getd_setEntry_ne raw "message" "timestamp" mv (by decide)]

theorem parse_message_setRole_isSome (parseTs : String → Option Nat) (fresh : String)
    (startedAt : Option Nat) (raw : RawRecord) (v : Json) :
    (parse_message parseTs fresh startedAt (setMessageRole raw v)).isSome =
      (parse_message parseTs fresh startedAt raw).isSome := by
  unfold setMessageRole
  cases hp : payloadFields raw with
  | none => rfl
  | some f =>
      have hobj := payloadFields_eq_obj hp
      have e1 : pyGet (setEntry raw "message" (.obj (setEntry f "role" v))) "type" (.str "unknown") =
          pyGet raw "type" (.str "unknown") :=
        pyGet_setEntry_ne raw "message" "type" _ _ (by decide)
      have e2 := parse_timestamp_field_setMessage parseTs raw (.obj (setEntry f "role" v))
        (isStr (pyGet raw "type" (.str "unknown")) "summary") startedAt
      have e3 : pyGet (setEntry raw "message" (.obj (setEntry f "role" v))) "message" (.obj []) =
          .obj (setEntry f "role" v) := by
        unfold pyGet
        rw [getEntry_setEntry_self]
        rfl
      have e4 : pyGet (setEntry raw "message" (.obj (setEntry f "role" v))) "summary" (.str "") =
          pyGet raw "summary" (.str "") :=
        pyGet_setEntry_ne raw "message" "summary" _ _ (by decide)
      have e5 : pyGet (setEntry f "role" v) "content" (.str "") = pyGet f "content" (.str "") :=
        pyGet_setEntry_ne f "role" "content" _ _ (by decide)
      unfold parse_message
      simp only [e1, e2, e3, e4, hobj]
      cases parse_timestamp_field parseTs raw (isStr (pyGet raw "type" (.str "unknown")) "summary") startedAt with
      | none => rfl
      | some ts =>
          cases hs : isStr (pyGet raw "type" (.str "unknown")) "summary" with
          | true =>
              simp only [if_true]
              cases extract_content (pyGet [("content", pyGet raw "summary" (.str ""))] "content" (.str "")) <;> rfl
          | false =>
              simp only [Bool.false_eq_true, if_false, e5]
              cases extract_content (pyGet f "content" (.str "")) <;> rfl

/-- C2: the parsed role is exactly the record's declared role (the
payload role, or `summary` for summary-typed records) except under the
single reclassification, which yields `tool`; and parse success never
depends on the role value, so no record is dropped because of its role. -/
theorem claim2_no_role_coercion (parseTs : String → Option Nat) (fresh : String)
    (startedAt : Option Nat) (raw : RawRecord) (pm : ParsedMessage)
    (hparse : parse_message parseTs fresh startedAt raw = some pm) :
    pm.role = (if toolResponseShape raw then Json.str "tool" else declaredRole raw) ∧
    ∀ v : Json, (parse_message parseTs fresh startedAt (setMessageRole raw v)).isSome = true := by
  constructor
  · unfold parse_message at hparse
    cases hs : isStr (pyGet raw "type" (.str "unknown")) "summary" with
    | true =>
        have hrole : declaredRole raw = .str "summary" := by
          unfold declaredRole
          simp [hs]
        have hshape : toolResponseShape raw = false := by
          unfold toolResponseShape
          rw [hrole]
          simp [isStr]
        simp only [hs, if_true] at hparse
        split at hparse
        · exact absurd hparse (by simp)
        · split at hparse
          · exact absurd hparse (by simp)
          · rw [Option.some.injEq] at hparse
            rw [← hparse, hshape, hrole]
            simp [isStr]
    | false =>
        cases hmsg : pyGet raw "message" (.obj []) with
        | obj f =>
            have hp : payloadFields raw = some f := by
              unfold payloadFields
              rw [hmsg]
            have hdecl : declaredRole raw = pyGet f "role" (pyGet raw "type" (.str "unknown")) := by
              unfold declaredRole
              rw [if_neg (by simp [hs]), hp]
            have hshape : toolResponseShape raw =
                (isStr (pyGet f "role" (pyGet raw "type" (.str "unknown"))) "user" &&
                  (hasToolResultContentBlock (getd f "content") || hasKey raw "toolUseResult")) := by
              unfold toolResponseShape
              rw [hdecl, hp]
            simp only [hs, Bool.false_eq_true, if_false, hmsg] at hparse
            split at hparse
            · exact absurd hparse (by simp)
            · split at hparse
              · exact absurd hparse (by simp)
              · rw [Option.some.injEq] at hparse
                rw [← hparse]
                simp only [hshape, hdecl, Bool.and_or_distrib_left]
        | str s =>
            simp only [hs, Bool.false_eq_true, if_false, hmsg] at hparse
            split at hparse <;> exact absurd hparse (by simp)
        | num n =>
            simp only [hs, Bool.false_eq_true, if_false, hmsg] at hparse
            split at hparse <;> exact absurd hparse (by simp)
        | bool b =>
            simp only [hs, Bool.false_eq_true, if_false, hmsg] at hparse
            split at hparse <;> exact absurd hparse (by simp)
        | null =>
            simp only [hs, Bool.false_eq_true, if_false, hmsg] at hparse
            split at hparse <;> exact absurd hparse (by simp)
        | arr items =>
            simp only [hs, Bool.false_eq_true, if_false, hmsg] at hparse
            split at hparse <;> exact absurd hparse (by simp)
  · intro v
    rw [parse_message_setRole_isSome parseTs fresh startedAt raw v, hparse]
    rfl

/-- Witness for C2 at a record carrying the unusual role `overseer`. -/
theorem claim2_witness :
    (parse_message tsOracleW "w" none rawW2).map (fun pm => pm.role) = some (.str "overseer") ∧
    (parse_message tsOracleW "w" none (setMessageRole rawW2 (.str "weird"))).isSome = true := by
  constructor
  · have h := (claim2_no_role_coercion tsOracleW "w" none rawW2
      { uuid := .str "w", role := .str "overseer", content := .str "hi",
        timestamp := none, tool_uses := .null,
        metadata := { original_type := .str "unknown", cwd := .null, git_branch := .null } } rfl).1
    exact congrArg some (h.trans (by decide))
  · exact (claim2_no_role_coercion tsOracleW "w" none rawW2
      { uuid := .str "w", role := .str "overseer", content := .str "hi",
        timestamp := none, tool_uses := .null,
        metadata := { original_type := .str "unknown", cwd := .null, git_branch := .null } } rfl).2 (.str "weird")

theorem fix_timestamps_isSome (mtime : Nat) (l : List ParsedMessage) :
    ∀ m ∈ fix_missing_timestamps mtime l, m.timestamp ≠ none := by
  induction l with
  | nil => intro m hm; cases hm
  | cons a rest ih =>
      intro m hm
      rw [fix_missing_timestamps] at hm
      rcases List.mem_cons.mp hm with h | h
      · subst h
        cases ha : a.timestamp <;> simp [ha]
      · exact ih m h

theorem fix_timestamps_get? (mtime : Nat) (l : List ParsedMessage) (i : Nat) :
    (fix_missing_timestamps mtime l)[i]? = l[i]?.map (repairAt mtime l i) := by
  induction l generalizing i with
  | nil => simp [fix_missing_timestamps]
  | cons a rest ih =>
      rw [fix_missing_timestamps]
      cases i with
      | zero =>
          simp only [List.getElem?_cons_zero, Option.map_some]
          cases ha : a.timestamp <;> simp [ha, repairAt, List.drop]
      | succ j =>
          simp only [List.getElem?_cons_succ, ih j]
          cases rest[j]? with
          | none => rfl
          | some m =>
              cases hm : m.timestamp <;> simp [hm, repairAt, List.drop]

theorem fix_timestamps_erase (mtime : Nat) (l : List ParsedMessage) :
    (fix_missing_timestamps mtime l).map eraseTimestamp = l.map eraseTimestamp := by
  induction l with
  | nil => rfl
  | cons a rest ih =>
      rw [fix_missing_timestamps]
      cases ha : a.timestamp <;> simp [ha, ih, eraseTimestamp]

theorem parse_conversation_file_msgs {parseTs : String → Option Nat} {freshAt : Nat → String}
    {fi : FileInfo} {raws : List RawRecord} {meta : ConversationMetadata}
    {msgs : List ParsedMessage}
    (hparse : parse_conversation_file parseTs freshAt fi raws = some (meta, msgs)) :
    msgs = fix_missing_timestamps fi.mtime (parsed_messages parseTs freshAt none raws) := by
  unfold parse_conversation_file at hparse
  split at hparse
  · exact absurd hparse (by simp)
  · rw [Option.some.injEq, Prod.mk.injEq] at hparse
    exact hparse.2.symm

/-- C3: after `parse_conversation_file`, no message has a null
timestamp; a message parsed without one receives the first timestamp of a
following parsed message, falling back to the file modification time. -/
theorem claim3_timestamps_repaired (parseTs : String → Option Nat) (freshAt : Nat → String)
    (fi : FileInfo) (raws : List RawRecord) (meta : ConversationMetadata)
    (msgs : List ParsedMessage)
    (hparse : parse_conversation_file parseTs freshAt fi raws = some (meta, msgs)) :
    (∀ m ∈ msgs, m.timestamp ≠ none) ∧
    (∀ i : Nat, msgs[i]? =
      (parsed_messages parseTs freshAt none raws)[i]?.map
        (repairAt fi.mtime (parsed_messages parseTs freshAt none raws) i)) := by
  have hmsgs := parse_conversation_file_msgs hparse
  constructor
  · intro m hm
    exact fix_timestamps_isSome fi.mtime (parsed_messages parseTs freshAt none raws) m (hmsgs ▸ hm)
  · intro i
    rw [hmsgs]
    exact fix_timestamps_get? fi.mtime (parsed_messages parseTs freshAt none raws) i

/-- Witness for C3: a file whose first record has no timestamp ends up
with both messages carrying the second record's timestamp. -/
theorem claim3_witness :
    parse_conversation_file tsOracleW freshAtW fiW rawsW3 =
      some
        ({ project_name := "proj", project_path := "/p", session_id := "sess",
           git_branch := none, started_at := some 11, ended_at := some 11,
           working_directory := none, message_count := 2, file_path := "/p/sess.jsonl" },
         [{ uuid := .str "fresh0", role := .str "user", content := .str "first",
            timestamp := some 11, tool_uses := .null,
            metadata := { original_type := .str "unknown", cwd := .null, git_branch := .null } },
          { uuid := .str "fresh1", role := .str "assistant", content := .str "second",
            timestamp := some 11, tool_uses := .null,
            metadata := { original_type := .str "unknown", cwd := .null, git_branch := .null } }]) ∧
    ([{ uuid := .str "fresh0", role := .str "user", content := .str "first",
        timestamp := some 11, tool_uses := .null,
        metadata := { original_type := .str "unknown", cwd := .null, git_branch := .null } },
      { uuid := .str "fresh1", role := .str "assistant", content := .str "second",
        timestamp := some 11, tool_uses := .null,
        metadata := { original_type := .str "unknown", cwd := .null, git_branch := .null } }] :
      List ParsedMessage)[0]? =
      some { uuid := .str "fresh0", role := .str "user", content := .str "first",
             timestamp := some 11, tool_uses := .null,
             metadata := { original_type := .str "unknown", cwd := .null, git_branch := .null } } := by
  constructor
  · rfl
  · exact ((claim3_timestamps_repaired tsOracleW freshAtW fiW rawsW3 _ _ rfl).2 0).trans rfl

/-- C10: modulo the repaired timestamps, the returned message list is
exactly the in-line-order list of successfully parsed records: nothing is
added, dropped (beyond parse failures) or reordered. -/
theorem claim10_source_order (parseTs : String → Option Nat) (freshAt : Nat → String)
    (fi : FileInfo) (raws : List RawRecord) (meta : ConversationMetadata)
    (msgs : List ParsedMessage)
    (hparse : parse_conversation_file parseTs freshAt fi raws = some (meta, msgs)) :
    msgs.map eraseTimestamp =
      raws.enum.filterMap fun p => (parse_message parseTs (freshAt p.1) none p.2).map eraseTimestamp := by
  have hmsgs := parse_conversation_file_msgs hparse
  rw [hmsgs, fix_timestamps_erase]
  unfold parsed_messages
  rw [List.map_filterMap]

/-- Witness for C10: a file with one parsable record and one record whose
parse raises yields exactly the parsable record, in order. -/
theorem claim10_witness :
    parse_conversation_file tsOracleW freshAtW fiW rawsW10 =
      some
        ({ project_name := "proj", project_path := "/p", session_id := "sess",
           git_branch := none, started_at := some 42, ended_at := some 42,
           working_directory := none, message_count := 1, file_path := "/p/sess.jsonl" },
         [{ uuid := .str "ka", role := .str "user", content := .str "kept",
            timestamp := some 42, tool_uses := .null,
            metadata := { original_type := .str "unknown", cwd := .null, git_branch := .null } }]) ∧
    ([{ uuid := .str "ka", role := .str "user", content := .str "kept",
        timestamp := some 42, tool_uses := .null,
        metadata := { original_type := .str "unknown", cwd := .null, git_branch := .null } }] :
      List ParsedMessage).map eraseTimestamp =
      [{ uuid := .str "ka", role := .str "user", content := .str "kept",
         timestamp := none, tool_uses := .null,
         metadata := { original_type := .str "unknown", cwd := .null, git_branch := .null } }] := by
  constructor
  · rfl
  · exact (claim10_source_order tsOracleW freshAtW fiW rawsW10 _ _ rfl).trans rfl

theorem hasKey_and_truthy (l : List (String × Json)) (k : String) :
    (hasKey l k && (getd l k).truthy) = (getd l k).truthy := by
  unfold hasKey getd pyGet
  cases getEntry l k <;> simp [truthy]

theorem findSome?_append {α β : Type} (l₁ l₂ : List α) (f : α → Option β) :
    (l₁ ++ l₂).findSome? f =
      (match l₁.findSome? f with
       | some v => some v
       | none => l₂.findSome? f) := by
  induction l₁ with
  | nil => simp [List.findSome?]
  | cons a rest ih =>
      simp only [List.cons_append, List.findSome?]
      cases f a <;> simp [ih]

theorem scanBranchCwd_spec (raws : List RawRecord) : ∀ wd : Option Json,
    scanBranchCwd none wd raws =
      (firstTruthyField "gitBranch" raws,
       match lastTruthyField "cwd" (upToFirstBranch raws) with
       | some v => some v
       | none => wd) := by
  induction raws with
  | nil =>
      intro wd
      simp [scanBranchCwd, firstTruthyField, lastTruthyField, upToFirstBranch, List.findSome?]
  | cons r rest ih =>
      intro wd
      cases hb : (getd r "gitBranch").truthy with
      | true =>
          have h1 : firstTruthyField "gitBranch" (r :: rest) = some (getd r "gitBranch") := by
            unfold firstTruthyField
            simp [List.findSome?, hb]
          have h2 : upToFirstBranch (r :: rest) = [r] := by
            simp [upToFirstBranch, hb]
          have h3 : lastTruthyField "cwd" [r] =
              (if (getd r "cwd").truthy then some (getd r "cwd") else none) := by
            unfold lastTruthyField firstTruthyField
            simp only [List.reverse_singleton, List.findSome?]
            cases (getd r "cwd").truthy <;> simp
          rw [scanBranchCwd, h1, h2, h3]
          simp only [hasKey_and_truthy]
          simp only [hb]
          cases hc : (getd r "cwd").truthy <;> simp [hc]
      | false =>
          have h1 : firstTruthyField "gitBranch" (r :: rest) = firstTruthyField "gitBranch" rest := by
            unfold firstTruthyField
            simp [List.findSome?, hb]
          have h2 : upToFirstBranch (r :: rest) = r :: upToFirstBranch rest := by
            simp [upToFirstBranch, hb]
          have h3 : lastTruthyField "cwd" (r :: upToFirstBranch rest) =
              (match lastTruthyField "cwd" (upToFirstBranch rest) with
               | some v => some v
               | none => if (getd r "cwd").truthy then some (getd r "cwd") else none) := by
            unfold lastTruthyField firstTruthyField
            simp only [List.reverse_cons]
            rw [findSome?_append]
            cases (upToFirstBranch rest).reverse.findSome?
                (fun r' => if (getd r' "cwd").truthy then some (getd r' "cwd") else none) with
            | some v => rfl
            | none =>
                simp only [List.findSome?]
                cases (getd r "cwd").truthy <;> simp
          rw [scanBranchCwd, h1, h2, h3]
          simp only [hasKey_and_truthy]
          simp only [hb]
          simp only [Bool.false_eq_true, if_false, Option.isSome_none]
          rw [ih]
          cases lastTruthyField "cwd" (upToFirstBranch rest) with
          | some v => simp
          | none => cases hc : (getd r "cwd").truthy <;> simp [hc]

/-- C9 fails on the code: the metadata scan breaks as soon as a branch is
found, so a working directory appearing only in a later record is never
picked up, although that record's `cwd` is the first non-empty one. -/
theorem claim9_counterexample :
    firstTruthyField "cwd" [[("gitBranch", Json.str "main")], [("cwd", Json.str "/x")]] =
      some (.str "/x") ∧
    (extract_conversation_metadata fiW
        [[("gitBranch", Json.str "main")], [("cwd", Json.str "/x")]]).working_directory = none :=
  ⟨rfl, rfl⟩

/-- C9 amended: the conversation git branch is the first non-empty
`gitBranch` in line order, while the working directory is the last
non-empty `cwd` among the records up to and including the first
branch-bearing record (all records when no branch occurs). -/
theorem claim9_first_branch_scan (fi : FileInfo) (raws : List RawRecord) :
    (extract_conversation_metadata fi raws).git_branch = firstTruthyField "gitBranch" raws ∧
    (extract_conversation_metadata fi raws).working_directory =
      lastTruthyField "cwd" (upToFirstBranch raws) := by
  have h := scanBranchCwd_spec raws none
  unfold extract_conversation_metadata
  rw [h]
  refine ⟨rfl, ?_⟩
  cases lastTruthyField "cwd" (upToFirstBranch raws) <;> rfl

/-- C7 fails on the code as stated: a supplied but empty embeddings list
is falsy in Python, so a length mismatch with a nonempty message list
raises no validation error and the conversation is stored. -/
theorem claim7_counterexample :
    ([] : List (Option (List ℚ))).length ≠ [msgW].length ∧
    (store_conversation dbW convW [msgW] (some [])).2.toOption.isSome = true ∧
    (store_conversation dbW convW [msgW] (some [])).1 ≠ [] := by
  exact ⟨by decide, rfl, by decide⟩

/-- C7 amended: a supplied non-empty embeddings list whose length differs
from the message count makes `store_conversation` return the validation
error with an empty action trace: the connection is never acquired, no
transaction is opened and no row of any table is written. -/
theorem claim7_validation_before_storage (db : DBState) (conversation : ConversationMetadata)
    (messages : List ParsedMessage) (es : List (Option (List ℚ)))
    (hne : es ≠ []) (hlen : es.length ≠ messages.length) :
    store_conversation db conversation messages (some es) = ([], .error .validation) := by
  have hemb : es.isEmpty = false := by
    cases es with
    | nil => exact absurd rfl hne
    | cons a rest => rfl
  have hdec : ((some es : Option (List (Option (List ℚ)))).getD []).length ≠ messages.length := by
    simpa using hlen
  unfold store_conversation
  simp [hemb, hdec, hlen]

/-- Witness for the amended C7 at a concrete mismatched call. -/
theorem claim7_witness :
    ([some []] : List (Option (List ℚ))) ≠ [] ∧
    ([some []] : List (Option (List ℚ))).length ≠ ([] : List ParsedMessage).length ∧
    store_conversation dbW convW [] (some [some []]) = ([], .error .validation) := by
  refine ⟨by decide, by decide, ?_⟩
  exact claim7_validation_before_storage dbW convW [] [some []] (by decide) (by decide)

theorem mem_insertByKey {α : Type} (key : α → ℚ) (a c : α) (l : List α)
    (h : c ∈ insertByKey key a l) : c = a ∨ c ∈ l := by
  induction l with
  | nil => simpa [insertByKey] using h
  | cons b rest ih =>
      rw [insertByKey] at h
      by_cases hle : key a ≤ key b
      · rw [if_pos hle] at h
        rcases List.mem_cons.mp h with h | h
        · exact Or.inl h
        · exact Or.inr h
      · rw [if_neg hle] at h
        rcases List.mem_cons.mp h with h | h
        · exact Or.inr (h ▸ List.mem_cons_self _ _)
        · rcases ih h with h2 | h2
          · exact Or.inl h2
          · exact Or.inr (List.mem_cons_of_mem _ h2)

theorem mem_sortByKey {α : Type} (key : α → ℚ) (c : α) (l : List α)
    (h : c ∈ sortByKey key l) : c ∈ l := by
  induction l with
  | nil => simp [sortByKey] at h
  | cons a rest ih =>
      rw [sortByKey] at h
      rcases mem_insertByKey key a c (sortByKey key rest) h with h2 | h2
      · exact h2 ▸ List.mem_cons_self _ _
      · exact List.mem_cons_of_mem _ (ih h2)

theorem sorted_insertByKey {α : Type} (key : α → ℚ) (a : α) (l : List α)
    (h : List.Sorted (fun x y => key x ≤ key y) l) :
    List.Sorted (fun x y => key x ≤ key y) (insertByKey key a l) := by
  induction l with
  | nil => simp [insertByKey]
  | cons b rest ih =>
      rw [insertByKey]
      by_cases hle : key a ≤ key b
      · rw [if_pos hle]
        refine List.sorted_cons.mpr ⟨?_, h⟩
        intro c hc
        rcases List.mem_cons.mp hc with h2 | h2
        · exact h2 ▸ hle
        · exact le_trans hle ((List.sorted_cons.mp h).1 c h2)
      · rw [if_neg hle]
        refine List.sorted_cons.mpr ⟨?_, ih (List.sorted_cons.mp h).2⟩
        intro c hc
        rcases mem_insertByKey key a c rest hc with h2 | h2
        · exact h2 ▸ le_of_not_le hle
        · exact (List.sorted_cons.mp h).1 c h2

theorem sorted_sortByKey {α : Type} (key : α → ℚ) (l : List α) :
    List.Sorted (fun x y => key x ≤ key y) (sortByKey key l) := by
  induction l with
  | nil => simp [sortByKey]
  | cons a rest ih =>
      rw [sortByKey]
      exact sorted_insertByKey key a (sortByKey key rest) ih

theorem searchKeep_embedding {dist : List ℚ → List ℚ → ℚ} {query : List ℚ} {threshold : ℚ}
    {pf : Option String} {da dbf : Option Nat} {mc : MessageRow × ConversationRow}
    (h : searchKeep dist query threshold pf da dbf mc = true) :
    ∃ v, mc.1.embedding = some v ∧ dist v query < threshold := by
  unfold searchKeep at h
  simp only [Bool.and_eq_true] at h
  have h1 := h.1.1.1
  cases hemb : mc.1.embedding with
  | none => rw [hemb] at h1; exact absurd h1 (by simp)
  | some v =>
      rw [hemb] at h1
      exact ⟨v, rfl, of_decide_eq_true h1⟩

theorem mem_searchJoin {db : DBState} {mc : MessageRow × ConversationRow}
    (h : mc ∈ (db.messages.map fun m =>
      db.conversations.filterMap fun c =>
        if c.id = m.conversation_id then some (m, c) else none).flatten) :
    mc.1 ∈ db.messages := by
  rw [List.mem_flatten] at h
  obtain ⟨inner, hinner, hmem⟩ := h
  rw [List.mem_map] at hinner
  obtain ⟨m, hm, hrow⟩ := hinner
  rw [← hrow, List.mem_filterMap] at hmem
  obtain ⟨c, hc, hif⟩ := hmem
  by_cases hid : c.id = m.conversation_id
  · rw [if_pos hid] at hif
    cases hif
    exact hm
  · rw [if_neg hid] at hif
    cases hif

/-- C8: search results are sorted by non-decreasing distance, every
result's distance is strictly below the threshold (a maximum-distance
cutoff), never more than `limit` results are returned, and every result
originates from a stored message row with a non-null embedding. -/
theorem claim8_search_contract (db : DBState) (dist : List ℚ → List ℚ → ℚ) (query : List ℚ)
    (limit : Nat) (threshold : ℚ) (project_filter : Option String)
    (date_after date_before : Option Nat) :
    List.Sorted (fun a b => a.similarity ≤ b.similarity)
      (search_similar db dist query limit threshold project_filter date_after date_before) ∧
    (∀ r ∈ search_similar db dist query limit threshold project_filter date_after date_before,
      r.similarity < threshold) ∧
    (search_similar db dist query limit threshold project_filter date_after date_before).length ≤ limit ∧
    (∀ r ∈ search_similar db dist query limit threshold project_filter date_after date_before,
      ∃ m ∈ db.messages, m.embedding.isSome = true ∧ r.id = m.id ∧
        r.similarity = dist (m.embedding.getD []) query) := by
  have hdef : search_similar db dist query limit threshold project_filter date_after date_before =
      ((sortByKey (fun mc : MessageRow × ConversationRow => dist (mc.1.embedding.getD []) query)
        ((db.messages.map fun m => db.conversations.filterMap fun c =>
          if c.id = m.conversation_id then some (m, c) else none).flatten.filter
          (searchKeep dist query threshold project_filter date_after date_before))).take limit).map
        (fun mc => { id := mc.1.id, content := mc.1.content, role := mc.1.role,
                     timestamp := mc.1.timestamp,
                     similarity := dist (mc.1.embedding.getD []) query,
                     project_name := mc.2.project_name, session_id := mc.2.session_id,
                     git_branch := mc.2.git_branch, file_path := mc.2.file_path }) := rfl
  rw [hdef]
  refine ⟨?_, ?_, ?_, ?_⟩
  · rw [List.Sorted, List.pairwise_map]
    dsimp only
    exact List.Pairwise.sublist (List.take_sublist _ _)
      (sorted_sortByKey (fun mc : MessageRow × ConversationRow => dist (mc.1.embedding.getD []) query) _)
  · intro r hr
    rw [List.mem_map] at hr
    obtain ⟨mc, hmc, hproj⟩ := hr
    have hsorted := mem_sortByKey _ mc _ (List.mem_of_mem_take hmc)
    rw [List.mem_filter] at hsorted
    obtain ⟨v, hv, hlt⟩ := searchKeep_embedding hsorted.2
    rw [← hproj]
    simpa [hv] using hlt
  · rw [List.length_map]
    exact List.length_take_le _ _
  · intro r hr
    rw [List.mem_map] at hr
    obtain ⟨mc, hmc, hproj⟩ := hr
    have hsorted := mem_sortByKey _ mc _ (List.mem_of_mem_take hmc)
    rw [List.mem_filter] at hsorted
    obtain ⟨v, hv, hlt⟩ := searchKeep_embedding hsorted.2
    refine ⟨mc.1, mem_searchJoin hsorted.1, by simp [hv], ?_, ?_⟩
    · rw [← hproj]
    · rw [← hproj]

/-- Witness for C8 on a one-row database with the constant-zero distance:
the query returns the stored message, below the threshold, within the
limit. -/
theorem claim8_witness :
    search_similar dbW8 (fun _ _ => 0) [1] 5 1 none none none = [resultW8] ∧
    resultW8.similarity < 1 ∧
    (search_similar dbW8 (fun _ _ => 0) [1] 5 1 none none none).length ≤ 5 := by
  refine ⟨rfl, ?_, (claim8_search_contract dbW8 (fun _ _ => 0) [1] 5 1 none none none).2.2.1⟩
  exact (claim8_search_contract dbW8 (fun _ _ => 0) [1] 5 1 none none none).2.1 resultW8
    (by rw [show search_similar dbW8 (fun _ _ => 0) [1] 5 1 none none none = [resultW8] from rfl]
        exact List.mem_singleton_self _)

theorem textPartStep_none (f : Json → Option Json) (b : Json) :
    textPartStep f none b = none := rfl

theorem textPartStep_some (f : Json → Option Json) (acc : List Json) (b : Json) :
    textPartStep f (some acc) b =
      (specContribution f b).map fun c =>
        match c with
        | some v => acc ++ [v]
        | none => acc := by
  cases b with
  | obj bf =>
      unfold textPartStep specContribution
      by_cases ht : (isStr (getd bf "type") "text" && hasKey bf "text") = true
      · simp [ht]
      · rw [Bool.not_eq_true] at ht
        simp only [ht, Bool.false_eq_true, if_false, Option.some_bind]
        cases getEntry bf "content" with
        | none => rfl
        | some c => cases hfc : f c <;> simp [hfc]
  | str s => rfl
  | num n => rfl
  | bool b => rfl
  | null => rfl
  | arr items => rfl

theorem foldl_textPartStep_none (f : Json → Option Json) (rest : List Json) :
    rest.foldl (textPartStep f) none = none := by
  induction rest with
  | nil => rfl
  | cons b r ih => rw [List.foldl_cons, textPartStep_none, ih]

theorem textPartsLoop_eq_specParts (f : Json → Option Json) (blocks : List Json) :
    textPartsLoop f blocks = specParts f blocks := by
  suffices h : ∀ acc, blocks.foldl (textPartStep f) (some acc) =
      (specParts f blocks).map (acc ++ ·) by
    unfold textPartsLoop
    rw [h []]
    cases specParts f blocks <;> simp
  induction blocks with
  | nil => intro acc; simp [specParts]
  | cons b rest ih =>
      intro acc
      rw [List.foldl_cons, textPartStep_some]
      cases hc : specContribution f b with
      | none =>
          rw [Option.map_none', foldl_textPartStep_none]
          rw [specParts, hc]
          rfl
      | some copt =>
          rw [Option.map_some']
          rw [ih]
          rw [specParts, hc]
          cases hrest : specParts f rest with
          | none => rfl
          | some ps => cases copt <;> simp

theorem specContribution_congr (f g : Json → Option Json) (h : ∀ c, f c = g c) (b : Json) :
    specContribution f b = specContribution g b := by
  cases b with
  | obj bf =>
      unfold specContribution
      cases getEntry bf "content" <;> simp [h]
  | str s => rfl
  | num n => rfl
  | bool b => rfl
  | null => rfl
  | arr items => rfl

theorem specParts_congr (f g : Json → Option Json) (h : ∀ c, f c = g c) (blocks : List Json) :
    specParts f blocks = specParts g blocks := by
  induction blocks with
  | nil => rfl
  | cons b rest ih =>
      rw [specParts, specParts, specContribution_congr f g h b, ih]

theorem extractF_eq_flattenSpecF : ∀ fuel c, extractF fuel c = flattenSpecF fuel c := by
  intro fuel
  induction fuel with
  | zero => intro c; rfl
  | succ n ih =>
      intro c
      cases c with
      | str s => rfl
      | num m => rfl
      | bool b => rfl
      | null => rfl
      | arr blocks =>
          simp only [extractF, flattenSpecF]
          rw [textPartsLoop_eq_specParts, specParts_congr (extractF n) (flattenSpecF n) ih blocks]
      | obj fields =>
          simp only [extractF, flattenSpecF]
          by_cases ht : (isStr (getd fields "type") "text" && hasKey fields "text") = true
          · simp [ht]
          · rw [Bool.not_eq_true] at ht
            simp only [ht, Bool.false_eq_true, if_false]
            cases getEntry fields "content" with
            | none => rfl
            | some c' => exact ih c'

/-- C4 fails on the code as stated: an unrecognized dict block inside a
list of blocks is dropped, not stringified — the flattened result is
empty although the block's stringification is not. -/
theorem claim4_counterexample :
    extract_content (.arr [.obj [("type", .str "image")]]) = some (.str "") ∧
    pyStr (.obj [("type", .str "image")]) ≠ "" :=
  ⟨rfl, by decide⟩

/-- C4 amended: `_extract_content` equals the declarative flattening in
which strings pass through, text blocks contribute their text, nested
`content` recurses, list contributions join with newline, and a block is
stringified only at top level — an unrecognized block inside a list
contributes nothing. -/
theorem claim4_flattening_algorithm (c : Json) : extract_content c = flattenSpec c :=
  extractF_eq_flattenSpecF (jsize c + 1) c

theorem infix_joinNl {s : String} {ss : List String} (h : s ∈ ss) :
    s.data <:+: (joinNl ss).data := by
  induction ss with
  | nil => cases h
  | cons a rest ih =>
      rcases List.mem_cons.mp h with h1 | h1
      · subst h1
        cases rest with
        | nil => exact List.infix_refl _
        | cons b r =>
            show s.data <:+: (s ++ "\n" ++ joinNl (b :: r)).data
            rw [String.data_append, String.data_append, List.append_assoc]
            exact (List.prefix_append _ _).isInfix
      · cases rest with
        | nil => cases h1
        | cons b r =>
            have h2 := ih h1
            refine h2.trans ?_
            show (joinNl (b :: r)).data <:+: (a ++ "\n" ++ joinNl (b :: r)).data
            rw [String.data_append, String.data_append]
            exact (List.suffix_append _ _).isInfix

theorem specContribution_obj_text {f : Json → Option Json} {bf : List (String × Json)}
    (htx : (isStr (getd bf "type") "text" && hasKey bf "text") = true) :
    specContribution f (.obj bf) = some (some (pyGet bf "text" .null)) := by
  show (if isStr (getd bf "type") "text" && hasKey bf "text" then
      some (some (pyGet bf "text" .null))
    else
      match getEntry bf "content" with
      | some c => (f c).map some
      | none => some none) = some (some (pyGet bf "text" .null))
  rw [if_pos htx]

theorem specContribution_obj_content {f : Json → Option Json} {bf : List (String × Json)}
    {c' : Json} (htx : (isStr (getd bf "type") "text" && hasKey bf "text") = false)
    (hget : getEntry bf "content" = some c') :
    specContribution f (.obj bf) = (f c').map some := by
  show (if isStr (getd bf "type") "text" && hasKey bf "text" then
      some (some (pyGet bf "text" .null))
    else
      match getEntry bf "content" with
      | some c => (f c).map some
      | none => some none) = (f c').map some
  rw [if_neg (by simp [htx]), hget]

theorem specContribution_obj_plain {f : Json → Option Json} {bf : List (String × Json)}
    (htx : (isStr (getd bf "type") "text" && hasKey bf "text") = false)
    (hget : getEntry bf "content" = none) :
    specContribution f (.obj bf) = some none := by
  show (if isStr (getd bf "type") "text" && hasKey bf "text" then
      some (some (pyGet bf "text" .null))
    else
      match getEntry bf "content" with
      | some c => (f c).map some
      | none => some none) = some none
  rw [if_neg (by simp [htx]), hget]

theorem blockLeaves_obj_text {g : Json → List String} {bf : List (String × Json)}
    (htx : (isStr (getd bf "type") "text" && hasKey bf "text") = true) :
    blockLeavesWith g (.obj bf) = textLeafOf (pyGet bf "text" .null) := by
  show (if isStr (getd bf "type") "text" && hasKey bf "text" then
      textLeafOf (pyGet bf "text" .null)
    else
      match getEntry bf "content" with
      | some c => g c
      | none => []) = textLeafOf (pyGet bf "text" .null)
  rw [if_pos htx]

theorem blockLeaves_obj_content {g : Json → List String} {bf : List (String × Json)}
    {c' : Json} (htx : (isStr (getd bf "type") "text" && hasKey bf "text") = false)
    (hget : getEntry bf "content" = some c') :
    blockLeavesWith g (.obj bf) = g c' := by
  show (if isStr (getd bf "type") "text" && hasKey bf "text" then
      textLeafOf (pyGet bf "text" .null)
    else
      match getEntry bf "content" with
      | some c => g c
      | none => []) = g c'
  rw [if_neg (by simp [htx]), hget]

theorem blockLeaves_obj_plain {g : Json → List String} {bf : List (String × Json)}
    (htx : (isStr (getd bf "type") "text" && hasKey bf "text") = false)
    (hget : getEntry bf "content" = none) :
    blockLeavesWith g (.obj bf) = [] := by
  show (if isStr (getd bf "type") "text" && hasKey bf "text" then
      textLeafOf (pyGet bf "text" .null)
    else
      match getEntry bf "content" with
      | some c => g c
      | none => []) = []
  rw [if_neg (by simp [htx]), hget]

theorem goodBlock_obj_content {g : Json → Bool} {bf : List (String × Json)}
    {c' : Json} (htx : (isStr (getd bf "type") "text" && hasKey bf "text") = false)
    (hget : getEntry bf "content" = some c') :
    goodBlockWith g (.obj bf) = g c' := by
  show (if isStr (getd bf "type") "text" && hasKey bf "text" then true
    else
      match getEntry bf "content" with
      | some c => g c
      | none => true) = g c'
  rw [if_neg (by simp [htx]), hget]

theorem specParts_preserve_leaves (n : Nat)
    (ihn : ∀ c r, noNestedListF n c = true → extractF n c = some (.str r) →
      ∀ t ∈ textLeavesF n c, t.data <:+: r.data) :
    ∀ blocks parts ss, blocks.all (goodBlockWith (noNestedListF n)) = true →
      specParts (extractF n) blocks = some parts →
      asStrings parts = some ss →
      ∀ t ∈ (blocks.map (blockLeavesWith (textLeavesF n))).flatten,
        ∃ s ∈ ss, t.data <:+: s.data := by
  intro blocks
  induction blocks with
  | nil =>
      intro parts ss hall hparts hss t ht
      simp at ht
  | cons b rest ih =>
      intro parts ss hall hparts hss t ht
      rw [List.all_cons, Bool.and_eq_true] at hall
      rw [specParts] at hparts
      cases hc : specContribution (extractF n) b with
      | none => rw [hc] at hparts; cases hparts
      | some copt =>
          rw [hc] at hparts
          cases hrest : specParts (extractF n) rest with
          | none => rw [hrest] at hparts; cases hparts
          | some ps =>
              rw [hrest, Option.some.injEq] at hparts
              simp only [List.map_cons, List.flatten_cons, List.mem_append] at ht
              cases copt with
              | none =>
                  have hparts' : ps = parts := hparts
                  rw [← hparts'] at hss
                  have hbleaves : blockLeavesWith (textLeavesF n) b = [] := by
                    cases b with
                    | str s => exact Option.noConfusion (Option.some.inj hc)
                    | arr items =>
                        exact absurd hall.1 (by simp [goodBlockWith])
                    | obj bf =>
                        by_cases htx : (isStr (getd bf "type") "text" && hasKey bf "text") = true
                        · rw [specContribution_obj_text htx] at hc
                          exact Option.noConfusion (Option.some.inj hc)
                        · rw [Bool.not_eq_true] at htx
                          cases hget : getEntry bf "content" with
                          | none => exact blockLeaves_obj_plain htx hget
                          | some c' =>
                              rw [specContribution_obj_content htx hget] at hc
                              cases hfc : extractF n c' with
                              | none => rw [hfc] at hc; exact Option.noConfusion hc
                              | some v =>
                                  rw [hfc, Option.map_some'] at hc
                                  exact Option.noConfusion (Option.some.inj hc)
                    | num m => rfl
                    | bool b' => rfl
                    | null => rfl
                  rw [hbleaves] at ht
                  rcases ht with ht | ht
                  · cases ht
                  · exact ih ps ss hall.2 hrest hss t ht
              | some v =>
                  have hparts' : v :: ps = parts := hparts
                  rw [← hparts'] at hss
                  cases v with
                  | str s0 =>
                      rw [asStrings] at hss
                      cases hss' : asStrings ps with
                      | none => rw [hss'] at hss; cases hss
                      | some ss' =>
                          rw [hss'] at hss
                          rw [Option.map_some', Option.some.injEq] at hss
                          rcases ht with ht | ht
                          · have hinf : t.data <:+: s0.data := by
                              cases b with
                              | str s =>
                                  have hc2 : (.str s : Json) = .str s0 :=
                                    Option.some.inj (Option.some.inj hc)
                                  rcases List.mem_singleton.mp ht with rfl
                                  cases hc2
                                  exact List.infix_refl _
                              | arr items =>
                                  exact absurd hall.1 (by simp [goodBlockWith])
                              | obj bf =>
                                  by_cases htx : (isStr (getd bf "type") "text" && hasKey bf "text") = true
                                  · rw [specContribution_obj_text htx] at hc
                                    have hc2 : pyGet bf "text" .null = .str s0 :=
                                      Option.some.inj (Option.some.inj hc)
                                    rw [blockLeaves_obj_text htx, hc2] at ht
                                    rcases List.mem_singleton.mp ht with rfl
                                    exact List.infix_refl _
                                  · rw [Bool.not_eq_true] at htx
                                    cases hget : getEntry bf "content" with
                                    | none =>
                                        rw [specContribution_obj_plain htx hget] at hc
                                        exact absurd (Option.some.inj hc) (by simp)
                                    | some c' =>
                                        rw [specContribution_obj_content htx hget] at hc
                                        cases hfc : extractF n c' with
                                        | none => rw [hfc] at hc; exact Option.noConfusion hc
                                        | some v' =>
                                            rw [hfc, Option.map_some'] at hc
                                            have hc2 : v' = .str s0 :=
                                              Option.some.inj (Option.some.inj hc)
                                            rw [blockLeaves_obj_content htx hget] at ht
                                            have hgood : noNestedListF n c' = true := by
                                              have h1 := hall.1
                                              rw [goodBlock_obj_content htx hget] at h1
                                              exact h1
                                            exact ihn c' s0 hgood (by rw [hfc, hc2]) t ht
                              | num m =>
                                  exact absurd (Option.some.inj hc) (by simp)
                              | bool b' =>
                                  exact absurd (Option.some.inj hc) (by simp)
                              | null =>
                                  exact absurd (Option.some.inj hc) (by simp)
                            refine ⟨s0, ?_, hinf⟩
                            rw [← hss]
                            exact List.mem_cons_self _ _
                          · obtain ⟨s, hs, hsinf⟩ := ih ps ss' hall.2 hrest hss' t ht
                            refine ⟨s, ?_, hsinf⟩
                            rw [← hss]
                            exact List.mem_cons_of_mem _ hs
                  | num m => exact Option.noConfusion hss
                  | bool b' => exact Option.noConfusion hss
                  | null => exact Option.noConfusion hss
                  | arr items => exact Option.noConfusion hss
                  | obj bf' => exact Option.noConfusion hss

theorem extractF_obj_text {n : Nat} {bf : List (String × Json)}
    (htx : (isStr (getd bf "type") "text" && hasKey bf "text") = true) :
    extractF (n + 1) (.obj bf) = some (pyGet bf "text" .null) := by
  show (if isStr (getd bf "type") "text" && hasKey bf "text" then
      some (pyGet bf "text" .null)
    else
      match getEntry bf "content" with
      | some c' => extractF n c'
      | none => some (.str (pyStr (.obj bf)))) = some (pyGet bf "text" .null)
  rw [if_pos htx]

theorem extractF_obj_content {n : Nat} {bf : List (String × Json)} {c' : Json}
    (htx : (isStr (getd bf "type") "text" && hasKey bf "text") = false)
    (hget : getEntry bf "content" = some c') :
    extractF (n + 1) (.obj bf) = extractF n c' := by
  show (if isStr (getd bf "type") "text" && hasKey bf "text" then
      some (pyGet bf "text" .null)
    else
      match getEntry bf "content" with
      | some c' => extractF n c'
      | none => some (.str (pyStr (.obj bf)))) = extractF n c'
  rw [if_neg (by simp [htx]), hget]

theorem extractF_obj_plain {n : Nat} {bf : List (String × Json)}
    (htx : (isStr (getd bf "type") "text" && hasKey bf "text") = false)
    (hget : getEntry bf "content" = none) :
    extractF (n + 1) (.obj bf) = some (.str (pyStr (.obj bf))) := by
  show (if isStr (getd bf "type") "text" && hasKey bf "text" then
      some (pyGet bf "text" .null)
    else
      match getEntry bf "content" with
      | some c' => extractF n c'
      | none => some (.str (pyStr (.obj bf)))) = some (.str (pyStr (.obj bf)))
  rw [if_neg (by simp [htx]), hget]

theorem extractF_preserves_leaves : ∀ fuel c r, noNestedListF fuel c = true →
    extractF fuel c = some (.str r) → ∀ t ∈ textLeavesF fuel c, t.data <:+: r.data := by
  intro fuel
  induction fuel with
  | zero =>
      intro c r hgood hex
      exact Option.noConfusion hex
  | succ n ih =>
      intro c r hgood hex t ht
      cases c with
      | str s =>
          have hr : Json.str s = .str r := Option.some.inj hex
          rcases List.mem_singleton.mp ht with rfl
          cases hr
          exact List.infix_refl _
      | num m => exact absurd ht (List.not_mem_nil _)
      | bool b => exact absurd ht (List.not_mem_nil _)
      | null => exact absurd ht (List.not_mem_nil _)
      | obj bf =>
          have ht' : t ∈ blockLeavesWith (textLeavesF n) (.obj bf) := ht
          have hgood' : goodBlockWith (noNestedListF n) (.obj bf) = true := hgood
          by_cases htx : (isStr (getd bf "type") "text" && hasKey bf "text") = true
          · rw [extractF_obj_text htx] at hex
            have hr : pyGet bf "text" .null = .str r := Option.some.inj hex
            rw [blockLeaves_obj_text htx, hr] at ht'
            rcases List.mem_singleton.mp ht' with rfl
            exact List.infix_refl _
          · rw [Bool.not_eq_true] at htx
            cases hget : getEntry bf "content" with
            | none =>
                rw [blockLeaves_obj_plain htx hget] at ht'
                exact absurd ht' (List.not_mem_nil _)
            | some c' =>
                rw [extractF_obj_content htx hget] at hex
                rw [blockLeaves_obj_content htx hget] at ht'
                rw [goodBlock_obj_content htx hget] at hgood'
                exact ih c' r hgood' hex t ht'
      | arr blocks =>
          have hgood' : blocks.all (goodBlockWith (noNestedListF n)) = true := hgood
          have ht' : t ∈ (blocks.map (blockLeavesWith (textLeavesF n))).flatten := ht
          have hex' : (match specParts (extractF n) blocks with
              | none => none
              | some parts =>
                  match asStrings parts with
                  | none => none
                  | some ss => some (Json.str (joinNl ss))) = some (Json.str r) := by
            rw [← textPartsLoop_eq_specParts]
            exact hex
          cases hparts : specParts (extractF n) blocks with
          | none => rw [hparts] at hex'; exact Option.noConfusion hex'
          | some parts =>
              have hex2 : (match asStrings parts with
                  | none => none
                  | some ss => some (Json.str (joinNl ss))) = some (Json.str r) := by
                rw [hparts] at hex'
                exact hex'
              cases hss : asStrings parts with
              | none => rw [hss] at hex2; exact Option.noConfusion hex2
              | some ss =>
                  rw [hss] at hex2
                  have hr : Json.str (joinNl ss) = .str r := Option.some.inj hex2
                  obtain ⟨s, hs, hinf⟩ :=
                    specParts_preserve_leaves n ih blocks parts ss hgood' hparts hss t ht'
                  have hrr : joinNl ss = r := by injection hr
                  exact hinf.trans (hrr ▸ infix_joinNl hs)

/-- C5 fails on the code as stated: a string leaf inside a list nested
directly in a list of blocks is dropped — the flattened result is empty
and does not contain the leaf. -/
theorem claim5_counterexample :
    extract_content (.arr [.arr [.str "hi"]]) = some (.str "") ∧
    "hi" ∈ textLeaves (.arr [.arr [.str "hi"]]) ∧
    ¬ ("hi".data <:+: ("" : String).data) :=
  ⟨rfl, by decide, by decide⟩

/-- C5 amended: flattening an already-flat string returns it unchanged
(so re-flattening a flat result is the identity), and whenever no list
occurs directly inside a list, every text-bearing leaf of the content
structure occurs as a substring of a successful string flattening. -/
theorem claim5_flat_strings_and_leaves :
    (∀ s : String, extract_content (.str s) = some (.str s)) ∧
    (∀ c r, noNestedList c = true → extract_content c = some (.str r) →
      ∀ t ∈ textLeaves c, t.data <:+: r.data) := by
  constructor
  · intro s
    rfl
  · intro c r hgood hex t ht
    exact extractF_preserves_leaves (jsize c + 1) c r hgood hex t ht

/-- Witness for the amended C5 at a two-block list whose leaves both
survive into the flattened result. -/
theorem claim5_witness :
    noNestedList (.arr [.obj [("type", .str "text"), ("text", .str "hello")], .str "world"]) = true ∧
    extract_content (.arr [.obj [("type", .str "text"), ("text", .str "hello")], .str "world"]) =
      some (.str "hello\nworld") ∧
    "hello".data <:+: ("hello\nworld" : String).data := by
  refine ⟨rfl, rfl, ?_⟩
  exact claim5_flat_strings_and_leaves.2
    (.arr [.obj [("type", .str "text"), ("text", .str "hello")], .str "world"])
    "hello\nworld" rfl rfl "hello" (by decide)

theorem foldl_append_map {α β : Type} (g : α → β) (chunks : List (List α)) :
    ∀ init : List β, chunks.foldl (fun acc batch => acc ++ batch.map g) init =
      init ++ (chunks.map (List.map g)).flatten := by
  induction chunks with
  | nil => intro init; simp
  | cons b rest ih =>
      intro init
      rw [List.foldl_cons, ih]
      simp [List.append_assoc]

theorem chunkF_flatten {α : Type} (bs : Nat) (hbs : 0 < bs) :
    ∀ fuel (l : List α), l.length ≤ fuel → (chunkF fuel bs l).flatten = l := by
  intro fuel
  induction fuel with
  | zero =>
      intro l hl
      cases l with
      | nil => rfl
      | cons a rest => simp at hl
  | succ n ih =>
      intro l hl
      cases l with
      | nil => rfl
      | cons a rest =>
          have hstep : chunkF (n + 1) bs (a :: rest) =
              (a :: rest).take bs :: chunkF n bs ((a :: rest).drop bs) := rfl
          rw [hstep, List.flatten_cons, ih ((a :: rest).drop bs) ?_, List.take_append_drop]
          have hlen : ((a :: rest).drop bs).length = (a :: rest).length - bs := by
            rw [List.length_drop]
          rw [hlen]
          simp only [List.length_cons] at hl ⊢
          omega

theorem embed_batch_eq_map {K : Type} [LinearOrderedField K] (sqrt : K → K)
    (post : String → Except Unit (List K)) (cfg : EmbeddingConfig) (texts : List String)
    (hbs : 0 < cfg.batch_size) :
    embed_batch sqrt post cfg texts = texts.map fun t =>
      match embed_single sqrt post cfg t with
      | .ok v => v
      | .error _ => zeroVec K 768 := by
  unfold embed_batch
  by_cases hempty : texts.isEmpty
  · rw [if_pos hempty]
    rw [List.isEmpty_iff] at hempty
    rw [hempty]
    rfl
  · rw [if_neg hempty, foldl_append_map, List.nil_append, ← List.map_flatten]
    unfold chunkList
    rw [chunkF_flatten cfg.batch_size hbs texts.length texts (le_refl _)]

theorem sumSq_cons {K : Type} [LinearOrderedField K] (a : K) (v : List K) :
    sumSq (a :: v) = a * a + sumSq v := rfl

theorem sumSq_nonneg {K : Type} [LinearOrderedField K] (v : List K) : 0 ≤ sumSq v := by
  induction v with
  | nil => exact le_refl 0
  | cons a rest ih =>
      rw [sumSq_cons]
      exact add_nonneg (mul_self_nonneg a) ih

theorem sumSq_eq_zero {K : Type} [LinearOrderedField K] {v : List K} (h : sumSq v = 0) :
    ∀ x ∈ v, x = 0 := by
  induction v with
  | nil => intro x hx; cases hx
  | cons a rest ih =>
      rw [sumSq_cons] at h
      have ha : a * a = 0 := by
        have h1 : a * a ≤ 0 := by
          have := le_add_of_nonneg_right (a := a * a) (sumSq_nonneg rest)
          rw [h] at this
          exact this
        exact le_antisymm h1 (mul_self_nonneg a)
      have hrest : sumSq rest = 0 := by
        rw [mul_self_eq_zero.mp ha] at h
        simpa using h
      intro x hx
      rcases List.mem_cons.mp hx with hx | hx
      · rw [hx]
        exact mul_self_eq_zero.mp ha
      · exact ih hrest x hx

theorem sumSq_map_div {K : Type} [LinearOrderedField K] (v : List K) (n : K) :
    sumSq (v.map (· / n)) = sumSq v / (n * n) := by
  induction v with
  | nil =>
      show (0 : K) = 0 / (n * n)
      rw [zero_div]
  | cons a rest ih =>
      rw [List.map_cons, sumSq_cons, sumSq_cons, ih, div_mul_div_comm, add_div]

theorem embed_single_normalized {K : Type} [LinearOrderedField K] (sqrt : K → K)
    (post : String → Except Unit (List K)) (cfg : EmbeddingConfig) (t : String) (v : List K)
    (hmul : ∀ x : K, 0 ≤ x → sqrt x * sqrt x = x)
    (hpos : ∀ x : K, 0 ≤ sqrt x)
    (hok : embed_single sqrt post cfg t = .ok v)
    (hnz : ∃ x ∈ v, x ≠ 0) :
    sumSq v = 1 ∧ sqrt (sumSq v) = 1 := by
  have hsum : sumSq v = 1 := by
    unfold embed_single at hok
    by_cases hpre : preprocess_text cfg t = ""
    · rw [if_pos hpre] at hok
      have hv : v = zeroVec K 768 := (Except.ok.inj hok).symm
      obtain ⟨x, hx, hxne⟩ := hnz
      rw [hv] at hx
      exact absurd (List.eq_of_mem_replicate hx) hxne
    · rw [if_neg hpre] at hok
      cases hpost : post (preprocess_text cfg t) with
      | error e => rw [hpost] at hok; exact Except.noConfusion hok
      | ok emb =>
          rw [hpost] at hok
          have hv : v = normalizeVec sqrt emb := (Except.ok.inj hok).symm
          simp only [normalizeVec] at hv
          by_cases hn : 0 < sqrt (sumSq emb)
          · rw [if_pos hn] at hv
            have hne : sumSq emb ≠ 0 := by
              intro h0
              rw [h0] at hn
              have hzz : sqrt 0 * sqrt 0 = 0 := hmul 0 (le_refl 0)
              rw [mul_self_eq_zero] at hzz
              rw [hzz] at hn
              exact lt_irrefl 0 hn
            rw [hv, sumSq_map_div, hmul (sumSq emb) (sumSq_nonneg emb)]
            exact div_self hne
          · rw [if_neg hn] at hv
            have hz : sqrt (sumSq emb) = 0 :=
              le_antisymm (not_lt.mp hn) (hpos (sumSq emb))
            have h0 : sumSq emb = 0 := by
              have hmm := hmul (sumSq emb) (sumSq_nonneg emb)
              rw [hz, mul_zero] at hmm
              exact hmm.symm
            obtain ⟨x, hx, hxne⟩ := hnz
            rw [hv] at hx
            exact absurd (sumSq_eq_zero h0 x hx) hxne
  refine ⟨hsum, ?_⟩
  rw [hsum]
  have h1 : sqrt 1 * sqrt 1 = 1 := hmul 1 zero_le_one
  rcases mul_self_eq_one_iff.mp h1 with h | h
  · exact h
  · exfalso
    have := hpos 1
    rw [h] at this
    linarith

/-- C6: `embed_batch` returns one vector per input text, in order: the
result of `embed_single` where it succeeded and the all-zero vector where
it raised; and every successful non-zero `embed_single` result is
L2-normalized. -/
theorem claim6_batch_embedding {K : Type} [LinearOrderedField K] (sqrt : K → K)
    (post : String → Except Unit (List K)) (cfg : EmbeddingConfig) (texts : List String)
    (hbs : 0 < cfg.batch_size)
    (hmul : ∀ x : K, 0 ≤ x → sqrt x * sqrt x = x)
    (hpos : ∀ x : K, 0 ≤ sqrt x) :
    (embed_batch sqrt post cfg texts).length = texts.length ∧
    embed_batch sqrt post cfg texts = (texts.map fun t =>
      match embed_single sqrt post cfg t with
      | .ok v => v
      | .error _ => zeroVec K 768) ∧
    (∀ t v, embed_single sqrt post cfg t = .ok v → (∃ x ∈ v, x ≠ 0) →
      sumSq v = 1 ∧ sqrt (sumSq v) = 1) := by
  have hmap := embed_batch_eq_map sqrt post cfg texts hbs
  refine ⟨?_, hmap, ?_⟩
  · rw [hmap, List.length_map]
  · intro t v hok hnz
    exact embed_single_normalized sqrt post cfg t v hmul hpos hok hnz

/-- Witness for C6 over the reals: a batch of three texts, batch size 2,
whose middle call raises, yields length 3 with a zero vector in the
middle and normalized vectors around it. -/
theorem claim6_witness :
    embed_batch Real.sqrt (fun s => if s = "boom" then .error () else .ok [3, 4])
        { batch_size := 2, max_text_length := 8192 } ["alpha", "boom", "beta"] =
      [normalizeVec Real.sqrt [3, 4], zeroVec ℝ 768, normalizeVec Real.sqrt [3, 4]] ∧
    sumSq (normalizeVec Real.sqrt [(3 : ℝ), 4]) = 1 := by
  have h := claim6_batch_embedding Real.sqrt
    (fun s => if s = "boom" then .error () else .ok [3, 4])
    { batch_size := 2, max_text_length := 8192 } ["alpha", "boom", "beta"]
    (by decide) (fun x hx => Real.mul_self_sqrt hx) Real.sqrt_nonneg
  constructor
  · exact h.2.1.trans rfl
  · have hnv : normalizeVec Real.sqrt [(3 : ℝ), 4] = [3 / 5, 4 / 5] := by
      have hs : sumSq [(3 : ℝ), 4] = 25 := by
        rw [show sumSq [(3 : ℝ), 4] = 3 * 3 + (4 * 4 + 0) from rfl]
        norm_num
      simp only [normalizeVec, hs]
      rw [show Real.sqrt 25 = 5 by
        rw [show (25 : ℝ) = 5 * 5 by norm_num]
        exact Real.sqrt_mul_self (by norm_num)]
      rw [if_pos (by norm_num)]
      simp
    refine (h.2.2 "alpha" (normalizeVec Real.sqrt [3, 4]) rfl ?_).1
    rw [hnv]
    exact ⟨3 / 5, by simp, by norm_num⟩
